import Mathlib

/-!
# Verification of the DogCareBot reminder/weight subsystem (`dog_bot.py`)

This file is a shallow embedding of the single source file `dog_bot.py`:
the in-memory user-data store (a Python dict keyed by `str(user_id)`),
the APScheduler job table (jobs keyed by a string job id), and the
command/conversation handlers that mutate them.

Modelling conventions:
* The Python dict `user_data` is modelled as an association list
  `List (Int × UserRecord)` in insertion order (Python dicts preserve
  insertion order).  Python keys are `str(user_id)`; since the program
  only ever uses canonical decimal forms (`str`/`int` round-trip), we key
  by the integer id directly and keep the decimal rendering (`intRepr`)
  for job-id composition, where the source interpolates the integer.
* The APScheduler job table is an insertion-ordered list of jobs
  `{id, hour, minute}`; `get_job`, `add_job`, `remove_job` act by id.
* Python string scanning (`int()`, `float()`, `str.split`,
  `datetime.strptime`) is modelled character-exactly on the grammar the
  program can exercise (ASCII decimal forms); exotic forms (underscore
  digit grouping, non-ASCII digits, float exponents / inf / nan) are
  outside the modelled grammar and are noted at each definition.
* Telegram/network I/O (`update.message.reply_text`, `bot.send_message`)
  is pure output: handlers return a result value describing the reply.
* Persistence: `save_data` serialises `user_data` to the data file; we
  model the file as the `file` field of the system state (a snapshot of
  the store at the last save).  `load_data`'s backing file is modelled by
  `DataFile`, distinguishing absent / unreadable / parseable / malformed.
-/

namespace DogBot

/-! ## Characters and digit scanning -/

/-- ASCII decimal digit test (the digits Python's scanners accept here). -/
def isDigitChar (c : Char) : Bool :=
  c = '0' || c = '1' || c = '2' || c = '3' || c = '4' ||
  c = '5' || c = '6' || c = '7' || c = '8' || c = '9'

/-- All characters are ASCII decimal digits. -/
def allDigits (cs : List Char) : Bool := cs.all isDigitChar

/-- Numeric value of a decimal digit string (most significant first). -/
def digitsVal (cs : List Char) : Nat :=
  cs.foldl (fun a c => a * 10 + (c.toNat - 48)) 0

/-- Python whitespace for `str.split()` / `int()` stripping
(space, tab, newline, carriage return, vertical tab, form feed). -/
def isPyWs (c : Char) : Bool :=
  c = ' ' || c = '\t' || c = '\n' || c = '\r' || c.toNat = 11 || c.toNat = 12

/-- Strip leading and trailing Python whitespace from a character list. -/
def stripWs (cs : List Char) : List Char :=
  ((cs.dropWhile isPyWs).reverse.dropWhile isPyWs).reverse

/-- `s.split(sep)` for a one-character separator: split at every
occurrence, producing one more part than there are occurrences (so
`"".split(':') = ['']`). -/
def splitOnChar (sep : Char) : List Char → List (List Char)
  | [] => [[]]
  | c :: rest =>
    if c = sep then [] :: splitOnChar sep rest
    else
      match splitOnChar sep rest with
      | [] => [[c]]
      | t :: ts => (c :: t) :: ts

/-- Exact value of a decimal literal as Python `float` parses it:
`num / 10 ^ exp`.  The decimal literals this program stores are carried
exactly (their value, not a binary rounding, is what the claims are
about; no arithmetic is ever performed on stored weights). -/
structure Dec where
  num : Int
  exp : Nat
deriving DecidableEq, Repr

/-- The decimal value is (strictly) positive. -/
def Dec.isPos (d : Dec) : Prop := 0 < d.num

/-- The decimal value is (strictly) negative. -/
def Dec.isNeg (d : Dec) : Prop := d.num < 0

/-- Models Python `int(s)` on the decimal grammar the program can meet:
optional surrounding whitespace, optional sign, one or more ASCII digits.
(Underscore digit grouping and non-ASCII digits are outside the model.) -/
def pyInt (cs : List Char) : Option Int :=
  match stripWs cs with
  | [] => none
  | c :: rest =>
    if c = '-' then
      if rest ≠ [] ∧ allDigits rest then some (-(digitsVal rest : Int)) else none
    else if c = '+' then
      if rest ≠ [] ∧ allDigits rest then some ((digitsVal rest : Int)) else none
    else if allDigits (c :: rest) then some ((digitsVal (c :: rest) : Int))
    else none

/-- Magnitude part of Python `float(s)`: digits with an optional single
point, at least one digit overall (`"5"`, `"5."`, `".5"`, `"12.5"`).
The value `intpart.fracpart` is `(intpart * 10^k + fracpart) / 10^k`. -/
def pyFloatMag (cs : List Char) : Option Dec :=
  let ip := cs.takeWhile isDigitChar
  let rest := cs.dropWhile isDigitChar
  match rest with
  | [] => if ip = [] then none else some ⟨(digitsVal ip : Int), 0⟩
  | '.' :: fp =>
    if allDigits fp ∧ (ip ≠ [] ∨ fp ≠ []) then
      some ⟨(digitsVal ip * 10 ^ fp.length + digitsVal fp : Int), fp.length⟩
    else none
  | _ => none

/-- Models Python `float(s)` on plain signed decimal literals (the
grammar exercised here; exponent notation, `inf`/`nan`, underscores are
outside the model).  The argument is a whitespace-free token, as produced
by `str.split()`. -/
def pyFloat (cs : List Char) : Option Dec :=
  match cs with
  | '-' :: rest => (pyFloatMag rest).map (fun q => ⟨-q.num, q.exp⟩)
  | '+' :: rest => pyFloatMag rest
  | _ => pyFloatMag cs

/-- Models `s.split()[0]`: first maximal run of non-whitespace characters,
`none` when the string is whitespace-only (Python raises `IndexError`). -/
def firstPyToken (cs : List Char) : Option (List Char) :=
  let t := cs.dropWhile isPyWs
  if t = [] then none else some (t.takeWhile (fun c => !isPyWs c))

/-- Models `datetime.strptime(s, '%H:%M')` as a recogniser: `%H` is one
or two digits valued 0–23, then a literal `:`, then `%M` is one or two
digits valued 0–59, with no surrounding slack.  Returns the parsed
(hour, minute). -/
def parseHM (s : String) : Option (Nat × Nat) :=
  match splitOnChar ':' s.data with
  | [hs, ms] =>
    if allDigits hs ∧ 1 ≤ hs.length ∧ hs.length ≤ 2 ∧
       allDigits ms ∧ 1 ≤ ms.length ∧ ms.length ≤ 2 then
      if digitsVal hs ≤ 23 ∧ digitsVal ms ≤ 59 then
        some (digitsVal hs, digitsVal ms)
      else none
    else none
  | _ => none

/-- Models `hour, minute = map(int, reminder_time.split(':'))` from
`schedule_reminder_job`: exactly two `:`-separated fields, each accepted
by Python `int`; `none` is the `ValueError` path. -/
def pySplitColonInts (s : String) : Option (Int × Int) :=
  match splitOnChar ':' s.data with
  | [a, b] =>
    match pyInt a, pyInt b with
    | some x, some y => some (x, y)
    | _, _ => none
  | _ => none

/-- Gregorian leap-year test (as `datetime`). -/
def isLeap (y : Nat) : Bool := y % 4 = 0 && (y % 100 ≠ 0 || y % 400 = 0)

/-- Days in a month (as `datetime`). -/
def daysInMonth (y m : Nat) : Nat :=
  if m = 2 then (if isLeap y then 29 else 28)
  else if m = 4 || m = 6 || m = 9 || m = 11 then 30
  else 31

/-- Models `datetime.strptime(s, '%Y-%m-%d')` as a recogniser: `%Y` is
exactly four digits, `%m` one or two digits valued 1–12, `%d` one or two
digits valued 1–31 and no larger than the month's length; year 0 is
rejected by the `datetime` constructor (`MINYEAR = 1`). -/
def parseDate (s : String) : Option (Nat × Nat × Nat) :=
  match splitOnChar '-' s.data with
  | [ys, ms, ds] =>
    if allDigits ys ∧ ys.length = 4 ∧
       allDigits ms ∧ 1 ≤ ms.length ∧ ms.length ≤ 2 ∧
       allDigits ds ∧ 1 ≤ ds.length ∧ ds.length ≤ 2 then
      if 1 ≤ digitsVal ys ∧ 1 ≤ digitsVal ms ∧ digitsVal ms ≤ 12 ∧
         1 ≤ digitsVal ds ∧ digitsVal ds ≤ daysInMonth (digitsVal ys) (digitsVal ms) then
        some (digitsVal ys, digitsVal ms, digitsVal ds)
      else none
    else none
  | _ => none

/-- ASCII lower-casing of one character, as `str.lower()` acts on the
ASCII inputs this program meets. -/
def pyLowerChar (c : Char) : Char :=
  if 'A' ≤ c ∧ c ≤ 'Z' then Char.ofNat (c.toNat + 32) else c

/-- Models `s.lower()` (ASCII range). -/
def pyLower (s : String) : String := String.mk (s.data.map pyLowerChar)

/-! ## Decimal rendering of ids (Python `str(int)` / f-string interpolation) -/

/-- The decimal digit character for `n < 10`. -/
def digitChar (n : Nat) : Char :=
  match n with
  | 0 => '0' | 1 => '1' | 2 => '2' | 3 => '3' | 4 => '4'
  | 5 => '5' | 6 => '6' | 7 => '7' | 8 => '8' | _ => '9'

/-- Decimal digits of `n`, fuel-indexed so it is structurally recursive. -/
def natReprAux : Nat → Nat → List Char
  | 0, _ => []
  | fuel + 1, n =>
    if n < 10 then [digitChar n]
    else natReprAux fuel (n / 10) ++ [digitChar (n % 10)]

/-- Decimal digits of a natural number (`str(n)` for `n ≥ 0`). -/
def natRepr (n : Nat) : List Char := natReprAux (n + 1) n

/-- Models Python `str(i)` / f-string interpolation of an `int`. -/
def intRepr (i : Int) : List Char :=
  match i with
  | .ofNat n => natRepr n
  | .negSucc n => '-' :: natRepr (n + 1)

/-! ## Data model -/

/-- One entry of a user's `"reminders"` list: `{"time": …, "message": …}`. -/
structure Reminder where
  time : String
  message : String
deriving DecidableEq, Repr

/-- One entry of a user's `"weights"` list: `{"date": …, "weight": …}`.
Python stores the weight as a float; the decimal values the program
parses are carried exactly as `Dec` values. -/
structure WeightEntry where
  date : String
  weight : Dec
deriving DecidableEq, Repr

/-- A user's record, as initialised by `get_user_data`. -/
structure UserRecord where
  weights : List WeightEntry := []
  reminders : List Reminder := []
deriving DecidableEq, Repr

/-- The global `user_data` dict, in insertion order. -/
abbrev Store := List (Int × UserRecord)

/-- One APScheduler job as this program creates them: a daily
`CronTrigger(hour, minute)` job with a string id.  The job's action
(sending the reminder text) is outward I/O and carries no state. -/
structure Job where
  id : String
  hour : Int
  minute : Int
deriving DecidableEq, Repr

/-- Whole-system state: the in-memory store, the scheduler job table,
and the data file (`none` before the first save of this run, otherwise
the store snapshot written by the last `save_data`). -/
structure SysState where
  store : Store
  jobs : List Job
  file : Option Store
deriving DecidableEq, Repr

/-- State at process start: empty `user_data = {}`, empty scheduler. -/
def initState : SysState := ⟨[], [], none⟩

/-! ## Store access (`get_user_data` and friends) -/

/-- The keys of the store, in order. -/
def userKeys (st : Store) : List Int := st.map (fun p => p.1)

/-- Dict lookup `user_data[str(u)]`. -/
def lookupUser (st : Store) (u : Int) : Option UserRecord :=
  (st.find? (fun p => p.1 = u)).map (fun p => p.2)

/-- The user's reminder list (empty when the user has no record). -/
def remindersOf (st : Store) (u : Int) : List Reminder :=
  ((lookupUser st u).map (fun r => r.reminders)).getD []

/-- The user's weight list (empty when the user has no record). -/
def weightsOf (st : Store) (u : Int) : List WeightEntry :=
  ((lookupUser st u).map (fun r => r.weights)).getD []

/-- The mutating half of `get_user_data`: if `str(u)` is not a key, a
fresh `{"weights": [], "reminders": []}` record is inserted. -/
def ensureUser (st : Store) (u : Int) : Store :=
  if st.any (fun p => p.1 = u) then st else st ++ [(u, ⟨[], []⟩)]

/-- In-place mutation of user `u`'s record (Python mutates the dict
value object). -/
def updateUser (st : Store) (u : Int) (f : UserRecord → UserRecord) : Store :=
  st.map (fun p => if p.1 = u then (p.1, f p.2) else p)

/-! ## Job identity and the scheduler wrapper -/

/-- `reminder_message.replace(' ', '_')`: single-character replace is a
character-wise map. -/
def normMsg (m : String) : List Char :=
  m.data.map (fun c => if c = ' ' then '_' else c)

/-- Characters of the job id
`f"reminder_{chat_id}_{reminder_time}_{message.replace(' ', '_')}"`. -/
def jobIdData (chat : Int) (t m : String) : List Char :=
  "reminder_".data ++ intRepr chat ++ '_' :: (t.data ++ '_' :: normMsg m)

/-- The job id string (`job_id` in `schedule_reminder_job` and
`delete_reminder`). -/
def jobId (chat : Int) (t m : String) : String :=
  String.mk (jobIdData chat t m)

/-- Result of `schedule_reminder_job`: Python returns `None` when it
skips an existing job, `True` on success, `False` on `ValueError`
(unparseable time, or `CronTrigger` rejecting an out-of-range field). -/
inductive SchedResult where
  | skipped
  | scheduled
  | failed
deriving DecidableEq, Repr

/-- `schedule_reminder_job(updater, chat_id, reminder_time,
reminder_message)`: parse the time with `map(int, ….split(':'))`, build
the job id, skip if `scheduler.get_job(job_id)` finds it, otherwise add
a daily cron job (`CronTrigger` raises `ValueError`, caught and turned
into `False`, when hour/minute are out of range). -/
def schedule_reminder_job (jobs : List Job) (chat_id : Int)
    (reminder_time reminder_message : String) : List Job × SchedResult :=
  match pySplitColonInts reminder_time with
  | none => (jobs, .failed)
  | some (h, m) =>
    if jobs.any (fun j => j.id = jobId chat_id reminder_time reminder_message) then
      (jobs, .skipped)
    else if 0 ≤ h ∧ h ≤ 23 ∧ 0 ≤ m ∧ m ≤ 59 then
      (jobs ++ [⟨jobId chat_id reminder_time reminder_message, h, m⟩], .scheduled)
    else (jobs, .failed)

/-- `remove_reminder_job`: `scheduler.remove_job(job_id)` removes the
job when present; `JobLookupError` (absent id) is caught and reported as
`False`. -/
def remove_reminder_job (jobs : List Job) (jid : String) : List Job × Bool :=
  (jobs.filter (fun j => j.id ≠ jid), jobs.any (fun j => j.id = jid))

/-- `repopulate_scheduled_jobs(updater)`: for every user in `user_data`
(insertion order), for every stored reminder (list order), call
`schedule_reminder_job`.  The store itself is not touched. -/
def repopulate (s : SysState) : SysState :=
  let js :=
    s.store.foldl
      (fun js p =>
        p.2.reminders.foldl
          (fun js2 r => (schedule_reminder_job js2 p.1 r.time r.message).1)
          js)
      s.jobs
  { s with jobs := js }

/-! ## Reminder handlers -/

/-- `add_reminder_get_time`: validate with `strptime('%H:%M')`; on
failure the handler replies and stays in `GET_REMINDER_TIME` (nothing
stored), on success the raw string is kept as `temp_reminder_time`. -/
def add_reminder_get_time (t : String) : Option String :=
  if (parseHM t).isSome then some t else none

/-- Outcome of the add-reminder conversation, as replied to the user. -/
inductive AddResult where
  | invalidTime
  | wentWrong
  | scheduled
  | schedFailed
deriving DecidableEq, Repr

/-- The add-reminder conversation: `add_reminder_get_time` followed by
`add_reminder_get_message` (append to the user's `"reminders"`,
`save_data()`, then `schedule_reminder_job`).  `wentWrong` is the
`if reminder_time and reminder_message:` guard failing (empty message). -/
def add_reminder (s : SysState) (u : Int) (t m : String) : SysState × AddResult :=
  match add_reminder_get_time t with
  | none => (s, .invalidTime)
  | some rt =>
    if rt ≠ "" ∧ m ≠ "" then
      let st1 := ensureUser s.store u
      let st2 := updateUser st1 u
        (fun ur => { ur with reminders := ur.reminders ++ [⟨rt, m⟩] })
      let sched := schedule_reminder_job s.jobs u rt m
      ({ store := st2, jobs := sched.1, file := some st2 },
       if sched.2 = .scheduled then .scheduled else .schedFailed)
    else (s, .wentWrong)

/-- `list_reminders`: `get_user_data` (which may insert a fresh empty
record), then render the reminders with 1-based numbers.  No save, no
scheduler access. -/
def list_reminders (s : SysState) (u : Int) : SysState × List (Nat × Reminder) :=
  let st1 := ensureUser s.store u
  ({ s with store := st1 },
   (remindersOf st1 u).enum.map (fun p => (p.1 + 1, p.2)))

/-- Outcome of `/deletereminder`, as replied to the user. -/
inductive DelResult where
  | noArgs
  | notInt
  | outOfRange
  | deleted (r : Reminder)
deriving DecidableEq, Repr

/-- `delete_reminder(update, context)` with `args = context.args`:
`get_user_data` first (may insert a fresh record), then the missing-arg
reply, then `int(args[0])` (ValueError → reply), the bounds check
`0 <= index < len(reminders)`, and finally `pop`, `save_data`, and
removal of the popped reminder's job. -/
def delete_reminder (s : SysState) (u : Int) (args : List String) :
    SysState × DelResult :=
  let st1 := ensureUser s.store u
  let rems := remindersOf st1 u
  match args with
  | [] => ({ s with store := st1 }, .noArgs)
  | a :: _ =>
    match pyInt a.data with
    | none => ({ s with store := st1 }, .notInt)
    | some k =>
      if h : 0 ≤ k - 1 ∧ (k - 1).toNat < rems.length then
        let r := rems.get ⟨(k - 1).toNat, h.2⟩
        let st2 := updateUser st1 u
          (fun ur => { ur with reminders := ur.reminders.eraseIdx (k - 1).toNat })
        let jid := jobId u r.time r.message
        ({ store := st2,
           jobs := (remove_reminder_job s.jobs jid).1,
           file := some st2 }, .deleted r)
      else ({ s with store := st1 }, .outOfRange)

/-! ## Weight handlers -/

/-- Result of `add_weight_get_weight` on one message text:
`float(weight_str.split()[0])`.  `indexError` is the uncaught
`IndexError` on a whitespace-only message; `reprompt` is the caught
`ValueError` (handler re-asks, stays in `GET_WEIGHT`). -/
inductive WParse where
  | indexError
  | reprompt
  | parsed (w : Dec)
deriving DecidableEq, Repr

/-- `add_weight_get_weight`: parse the first whitespace-separated token
of the message as a float.  No sign or range check in the source. -/
def add_weight_get_weight (wstr : String) : WParse :=
  match firstPyToken wstr.data with
  | none => .indexError
  | some tok =>
    match pyFloat tok with
    | none => .reprompt
    | some w => .parsed w

/-- `add_weight_get_date`'s date resolution: the handler lower-cases the
text, accepts `"today"` (resolved via the clock) or any
`strptime('%Y-%m-%d')`-valid string, and stores the lower-cased string. -/
def add_weight_get_date_resolve (dstr today : String) : Option String :=
  let dl := pyLower dstr
  if dl = "today" then some today
  else if (parseDate dl).isSome then some dl else none

/-- Outcome of the add-weight conversation. -/
inductive AWResult where
  | indexError
  | badWeight
  | badDate
  | saved (w : Dec) (date : String)
deriving DecidableEq, Repr

/-- The add-weight conversation: `add_weight_get_weight` then
`add_weight_get_date` (resolve the date, `get_user_data`, append
`{"date": date, "weight": weight}`, `save_data()`).  `today` is the
clock's `datetime.now().strftime('%Y-%m-%d')`. -/
def add_weight (s : SysState) (u : Int) (wstr dstr today : String) :
    SysState × AWResult :=
  match add_weight_get_weight wstr with
  | .indexError => (s, .indexError)
  | .reprompt => (s, .badWeight)
  | .parsed w =>
    match add_weight_get_date_resolve dstr today with
    | none => (s, .badDate)
    | some d =>
      let st1 := ensureUser s.store u
      let st2 := updateUser st1 u
        (fun ur => { ur with weights := ur.weights ++ [⟨d, w⟩] })
      ({ store := st2, jobs := s.jobs, file := some st2 }, .saved w d)

/-- Strict lexicographic comparison of character lists by code point —
exactly Python string `<` on the stored date strings. -/
def listLt : List Char → List Char → Bool
  | [], [] => false
  | [], _ :: _ => true
  | _ :: _, [] => false
  | a :: as, b :: bs => if a < b then true else if b < a then false else listLt as bs

/-- `a <= b` on strings, as Python compares the date keys. -/
def strLe (a b : String) : Bool := !listLt b.data a.data

/-- Stable insertion into a date-ascending list: the new element goes
before the first entry whose date is not smaller, so earlier list
elements with equal dates stay first — the placement Python's stable
`sorted(…, key=lambda x: x['date'])` gives. -/
def insertByDate (w : WeightEntry) : List WeightEntry → List WeightEntry
  | [] => [w]
  | x :: xs =>
    if listLt x.date.data w.date.data then x :: insertByDate w xs else w :: x :: xs

/-- Stable sort by date ascending, modelling
`sorted(weights, key=lambda x: x['date'])` (a stable ascending sort is
unique, so any stable algorithm models Python's). -/
def sortByDate : List WeightEntry → List WeightEntry
  | [] => []
  | x :: xs => insertByDate x (sortByDate xs)

/-- `view_weights`: `get_user_data` (may insert a fresh empty record),
then display the weight entries sorted by date.  No save, no scheduler
access. -/
def view_weights (s : SysState) (u : Int) : SysState × List WeightEntry :=
  let st1 := ensureUser s.store u
  ({ s with store := st1 }, sortByDate (weightsOf st1 u))

/-! ## Loading (`load_data`) -/

/-- The backing data file as `load_data` can find it: absent
(`os.path.exists` false), existing but unreadable (`open` raises an
`OSError`, with the exception's description), readable and valid JSON
(carrying the decoded store), or readable but malformed
(`json.load` raises `json.JSONDecodeError`). -/
inductive DataFile where
  | absent
  | unreadable (err : String)
  | wellFormed (d : Store)
  | malformed (text : String)
deriving DecidableEq, Repr

/-- `load_data()` acting on the current global `user_data` (`ud`): an
absent file leaves it as it is; valid JSON replaces it; a
`json.JSONDecodeError` is caught and resets it to `{}`; an unreadable
existing file raises an `OSError` that no handler catches
(`.error`). -/
def load_data (f : DataFile) (ud : Store) : Except String Store :=
  match f with
  | .absent => .ok ud
  | .unreadable e => .error e
  | .wellFormed d => .ok d
  | .malformed _ => .ok []

/-! ## Reachable system states

The closed system: starting from the empty state a process start
produces (empty store, no jobs), any sequence of the program's own
handler invocations and of the startup reconciler.  (`load_data` of a
file this program saved reproduces a store these transitions generate;
externally corrupted-but-parseable files are outside this relation.) -/

inductive Reachable : SysState → Prop where
  | init : Reachable initState
  | addR (s : SysState) (u : Int) (t m : String) :
      Reachable s → Reachable (add_reminder s u t m).1
  | delR (s : SysState) (u : Int) (args : List String) :
      Reachable s → Reachable (delete_reminder s u args).1
  | addW (s : SysState) (u : Int) (wstr dstr today : String) :
      Reachable s → Reachable (add_weight s u wstr dstr today).1
  | listR (s : SysState) (u : Int) :
      Reachable s → Reachable (list_reminders s u).1
  | viewW (s : SysState) (u : Int) :
      Reachable s → Reachable (view_weights s u).1
  | repop (s : SysState) :
      Reachable s → Reachable (repopulate s)

/-- The job identities derivable from the store's persisted reminders. -/
def reminderIds (st : Store) : List String :=
  st.flatMap (fun p => p.2.reminders.map (fun r => jobId p.1 r.time r.message))

/-- The live scheduler job identities. -/
def jobIds (js : List Job) : List String := js.map (fun j => j.id)

/-- The time string parses in `schedule_reminder_job` and both fields
are in `CronTrigger`'s accepted ranges. -/
def timeOK (t : String) : Prop :=
  match pySplitColonInts t with
  | none => False
  | some (h, m) => 0 ≤ h ∧ h ≤ 23 ∧ 0 ≤ m ∧ m ≤ 59

/-- Every persisted reminder's time is `strptime('%H:%M')`-valid (the
add-reminder conversation validates before appending). -/
def TimesValid (st : Store) : Prop :=
  ∀ p ∈ st, ∀ r ∈ p.2.reminders, (parseHM r.time).isSome

/-- The closed-system invariant: persisted times are valid, every live
job id is derivable from a persisted reminder, job ids are distinct, and
store keys are distinct. -/
def Inv (s : SysState) : Prop :=
  TimesValid s.store ∧ (∀ j ∈ s.jobs, j.id ∈ reminderIds s.store) ∧
    (jobIds s.jobs).Nodup ∧ (userKeys s.store).Nodup


/-! ## Scanning lemmas -/

theorem dropWhile_eq_self_of {p : Char → Bool} :
    ∀ {cs : List Char}, (∀ c ∈ cs, p c = false) → cs.dropWhile p = cs
  | [], _ => rfl
  | c :: t, h => by simp [List.dropWhile_cons, h c (by simp)]

theorem digit_not_ws {c : Char} (h : isDigitChar c = true) : isPyWs c = false := by
  simp only [isDigitChar, Bool.or_eq_true, decide_eq_true_eq] at h
  rcases h with ((((((((h|h)|h)|h)|h)|h)|h)|h)|h)|h <;> subst h <;> decide

theorem digit_ne_minus {c : Char} (h : isDigitChar c = true) : c ≠ '-' := by
  simp only [isDigitChar, Bool.or_eq_true, decide_eq_true_eq] at h
  rcases h with ((((((((h|h)|h)|h)|h)|h)|h)|h)|h)|h <;> subst h <;> decide

theorem digit_ne_plus {c : Char} (h : isDigitChar c = true) : c ≠ '+' := by
  simp only [isDigitChar, Bool.or_eq_true, decide_eq_true_eq] at h
  rcases h with ((((((((h|h)|h)|h)|h)|h)|h)|h)|h)|h <;> subst h <;> decide

theorem stripWs_of_nows {cs : List Char} (h : ∀ c ∈ cs, isPyWs c = false) :
    stripWs cs = cs := by
  unfold stripWs
  rw [dropWhile_eq_self_of h,
    dropWhile_eq_self_of (fun c hc => h c (List.mem_reverse.mp hc)),
    List.reverse_reverse]

/-- On a pure nonempty digit string, Python `int` returns the digit
value. -/
theorem pyInt_digits {cs : List Char} (hne : cs ≠ []) (hd : allDigits cs = true) :
    pyInt cs = some ((digitsVal cs : Int)) := by
  unfold allDigits at hd
  have hnows : ∀ c ∈ cs, isPyWs c = false :=
    fun c hc => digit_not_ws (List.all_eq_true.mp hd c hc)
  cases cs with
  | nil => exact absurd rfl hne
  | cons c t =>
    have hstrip : stripWs (c :: t) = c :: t := stripWs_of_nows hnows
    have hc : isDigitChar c = true := List.all_eq_true.mp hd c (by simp)
    unfold pyInt
    rw [hstrip]
    simp [digit_ne_minus hc, digit_ne_plus hc, allDigits, hd]

/-- Bridge: a `strptime('%H:%M')`-valid time is parsed by
`schedule_reminder_job`'s own scanner to the same in-range values. -/
theorem timeOK_of_parseHM {t : String} {h m : Nat} (hp : parseHM t = some (h, m)) :
    pySplitColonInts t = some ((h : Int), (m : Int)) ∧ timeOK t := by
  unfold parseHM at hp
  split at hp
  case h_2 => exact absurd hp (by simp)
  case h_1 hs ms heq =>
    split at hp
    case isFalse => exact absurd hp (by simp)
    case isTrue hcond =>
      split at hp
      case isFalse => exact absurd hp (by simp)
      case isTrue hrange =>
        obtain ⟨hdh, hlh1, hlh2, hdm, hlm1, hlm2⟩ := hcond
        obtain ⟨hh23, hm59⟩ := hrange
        have hhm : digitsVal hs = h ∧ digitsVal ms = m := by
          simpa using hp
        obtain ⟨hh, hm2⟩ := hhm
        subst hh
        subst hm2
        have hsne : hs ≠ [] := by
          intro hnil; rw [hnil] at hlh1; simp at hlh1
        have msne : ms ≠ [] := by
          intro hnil; rw [hnil] at hlm1; simp at hlm1
        have hps : pySplitColonInts t = some ((digitsVal hs : Int), (digitsVal ms : Int)) := by
          unfold pySplitColonInts
          rw [heq]
          dsimp only
          rw [pyInt_digits hsne hdh, pyInt_digits msne hdm]
        refine ⟨hps, ?_⟩
        unfold timeOK
        rw [hps]
        refine ⟨by positivity, by exact_mod_cast hh23, by positivity, by exact_mod_cast hm59⟩

/-! ## Store lemmas -/

theorem any_key_iff (st : Store) (u : Int) :
    st.any (fun p => p.1 = u) = true ↔ u ∈ userKeys st := by
  simp only [userKeys, List.any_eq_true, decide_eq_true_eq, List.mem_map]

theorem updateUser_of_no_key {st : Store} {u : Int} (h : ∀ p ∈ st, p.1 ≠ u)
    (f : UserRecord → UserRecord) : updateUser st u f = st := by
  unfold updateUser
  rw [List.map_congr_left, List.map_id]
  intro p hp
  simp [h p hp]

theorem userKeys_updateUser (st : Store) (u : Int) (f : UserRecord → UserRecord) :
    userKeys (updateUser st u f) = userKeys st := by
  unfold userKeys updateUser
  rw [List.map_map, List.map_congr_left]
  intro p _
  by_cases h : p.1 = u <;> simp [h]

theorem reminderIds_ensureUser (st : Store) (u : Int) :
    reminderIds (ensureUser st u) = reminderIds st := by
  unfold ensureUser
  split
  · rfl
  · simp [reminderIds]

theorem lookupUser_of_no_key {st : Store} {u : Int} (h : ∀ p ∈ st, p.1 ≠ u) :
    lookupUser st u = none := by
  unfold lookupUser
  rw [List.find?_eq_none.mpr]
  · rfl
  · intro p hp; simp [h p hp]

theorem remindersOf_ensureUser (st : Store) (u : Int) :
    remindersOf (ensureUser st u) u = remindersOf st u := by
  unfold ensureUser
  split
  · rfl
  case isFalse hany =>
    have hno : ∀ p ∈ st, p.1 ≠ u := by
      intro p hp he
      rw [Bool.not_eq_true, List.any_eq_false] at hany
      exact absurd (by simp [he] : (fun p => decide (p.1 = u)) p = true)
        (by simpa using hany p hp)
    unfold remindersOf lookupUser
    rw [List.find?_append, List.find?_eq_none.mpr (fun p hp => by simp [hno p hp])]
    simp

theorem weightsOf_ensureUser (st : Store) (u : Int) :
    weightsOf (ensureUser st u) u = weightsOf st u := by
  unfold ensureUser
  split
  · rfl
  case isFalse hany =>
    have hno : ∀ p ∈ st, p.1 ≠ u := by
      intro p hp he
      rw [Bool.not_eq_true, List.any_eq_false] at hany
      exact absurd (by simp [he] : (fun p => decide (p.1 = u)) p = true)
        (by simpa using hany p hp)
    unfold weightsOf lookupUser
    rw [List.find?_append, List.find?_eq_none.mpr (fun p hp => by simp [hno p hp])]
    simp

theorem mem_keys_ensureUser (st : Store) (u : Int) : u ∈ userKeys (ensureUser st u) := by
  unfold ensureUser
  split
  case isTrue h => exact (any_key_iff st u).mp h
  case isFalse h => simp [userKeys]

theorem userKeys_ensureUser_nodup {st : Store} (u : Int)
    (h : (userKeys st).Nodup) : (userKeys (ensureUser st u)).Nodup := by
  unfold ensureUser
  split
  · exact h
  case isFalse hany =>
    have hu : u ∉ userKeys st := fun hm => hany ((any_key_iff st u).mpr hm)
    simp only [userKeys, List.map_append, List.map_cons, List.map_nil]
    refine List.Nodup.append h (List.nodup_singleton u) ?_
    intro a ha hau
    rw [List.mem_singleton] at hau
    exact hu (hau ▸ ha)

/-- Decomposition of a nodup-keyed store at a present key: the store is
`pre ++ (u, ur) :: suf` with `u` nowhere else, lookup finds `ur`, and
`updateUser` rewrites exactly that entry. -/
theorem store_decomp {st : Store} {u : Int} (hnd : (userKeys st).Nodup)
    (hmem : u ∈ userKeys st) :
    ∃ pre ur suf, st = pre ++ (u, ur) :: suf ∧
      (∀ p ∈ pre, p.1 ≠ u) ∧ (∀ p ∈ suf, p.1 ≠ u) ∧
      lookupUser st u = some ur ∧
      ∀ f, updateUser st u f = pre ++ (u, f ur) :: suf := by
  induction st with
  | nil => simp [userKeys] at hmem
  | cons q rest ih =>
    by_cases hq : q.1 = u
    · have hrest : ∀ p ∈ rest, p.1 ≠ u := by
        intro p hp he
        simp only [userKeys, List.map_cons, List.nodup_cons] at hnd
        apply hnd.1
        rw [hq, ← he]
        exact List.mem_map.mpr ⟨p, hp, rfl⟩
      refine ⟨[], q.2, rest, ?_, by simp, hrest, ?_, ?_⟩
      · simp [← hq]
      · unfold lookupUser
        rw [List.find?_cons_of_pos _ (by simp [hq])]
        rfl
      · intro f
        unfold updateUser
        rw [List.map_cons, if_pos hq, hq]
        simp only [List.nil_append]
        congr 1
        exact updateUser_of_no_key hrest f
    · have hmem' : u ∈ userKeys rest := by
        simp only [userKeys, List.map_cons, List.mem_cons] at hmem
        rcases hmem with h | h
        · exact absurd h.symm hq
        · exact h
      have hnd' : (userKeys rest).Nodup := by
        simp only [userKeys, List.map_cons, List.nodup_cons] at hnd
        exact hnd.2
      obtain ⟨pre, ur, suf, hst, hpre, hsuf, hlk, hupd⟩ := ih hnd' hmem'
      refine ⟨q :: pre, ur, suf, by rw [hst]; rfl, ?_, hsuf, ?_, ?_⟩
      · intro p hp
        rcases List.mem_cons.mp hp with rfl | hp'
        · exact hq
        · exact hpre p hp'
      · unfold lookupUser
        rw [List.find?_cons_of_neg _ (by simp [hq])]
        exact hlk
      · intro f
        unfold updateUser
        rw [List.map_cons, if_neg hq]
        have h2 := hupd f
        unfold updateUser at h2
        rw [h2]
        rfl

/-! ## Scheduler lemmas -/

theorem schedule_mem_forward {js : List Job} {c : Int} {t m : String} {j : Job}
    (hj : j ∈ (schedule_reminder_job js c t m).1) :
    j ∈ js ∨ j.id = jobId c t m := by
  unfold schedule_reminder_job at hj
  split at hj
  · exact Or.inl hj
  · split at hj
    · exact Or.inl hj
    · split at hj
      · rcases List.mem_append.mp hj with h | h
        · exact Or.inl h
        · right; simp only [List.mem_singleton] at h; rw [h]
      · exact Or.inl hj

theorem jobIds_schedule_mem (js : List Job) (c : Int) (t m : String) (x : String) :
    x ∈ jobIds (schedule_reminder_job js c t m).1 ↔
      x ∈ jobIds js ∨ (x = jobId c t m ∧ timeOK t) := by
  unfold schedule_reminder_job
  cases hpt : pySplitColonInts t with
  | none =>
    have : ¬ timeOK t := by unfold timeOK; rw [hpt]; exact id
    simp [this]
  | some hm =>
    obtain ⟨hh, mm⟩ := hm
    dsimp only
    split
    case isTrue hany =>
      rw [List.any_eq_true] at hany
      obtain ⟨j, hj, hjid⟩ := hany
      simp only [decide_eq_true_eq] at hjid
      constructor
      · exact Or.inl
      · rintro (h | ⟨rfl, _⟩)
        · exact h
        · exact hjid ▸ List.mem_map.mpr ⟨j, hj, rfl⟩
    case isFalse hany =>
      split
      case isTrue hr =>
        have hok : timeOK t := by unfold timeOK; rw [hpt]; exact hr
        simp [jobIds, hok]
      case isFalse hr =>
        have hok : ¬ timeOK t := by unfold timeOK; rw [hpt]; exact hr
        simp [hok]

theorem jobIds_schedule_nodup {js : List Job} (c : Int) (t m : String)
    (h : (jobIds js).Nodup) : (jobIds (schedule_reminder_job js c t m).1).Nodup := by
  unfold schedule_reminder_job
  split
  · exact h
  · split
    · exact h
    · split
      · case isTrue hany _ =>
        have hnotin : jobId c t m ∉ jobIds js := by
          intro hmem
          rw [Bool.not_eq_true, List.any_eq_false] at hany
          obtain ⟨j, hj, hjid⟩ := List.mem_map.mp hmem
          exact absurd (by simpa using hjid) (by simpa using hany j hj)
        simp only [jobIds, List.map_append, List.map_cons, List.map_nil]
        refine List.Nodup.append h (List.nodup_singleton _) ?_
        intro a ha hau
        rw [List.mem_singleton] at hau
        exact hnotin (hau ▸ ha)
      · exact h

theorem jobIds_foldSched_mem (c : Int) :
    ∀ (rs : List Reminder) (js : List Job) (x : String),
      x ∈ jobIds (rs.foldl (fun js2 r => (schedule_reminder_job js2 c r.time r.message).1) js) ↔
        x ∈ jobIds js ∨ ∃ r ∈ rs, x = jobId c r.time r.message ∧ timeOK r.time := by
  intro rs
  induction rs with
  | nil => simp
  | cons r rs ih =>
    intro js x
    rw [List.foldl_cons, ih, jobIds_schedule_mem]
    constructor
    · rintro ((h | h) | ⟨r', hr', h⟩)
      · exact Or.inl h
      · exact Or.inr ⟨r, by simp, h⟩
      · exact Or.inr ⟨r', by simp [hr'], h⟩
    · rintro (h | ⟨r', hr', h⟩)
      · exact Or.inl (Or.inl h)
      · rcases List.mem_cons.mp hr' with rfl | hr''
        · exact Or.inl (Or.inr h)
        · exact Or.inr ⟨r', hr'', h⟩

theorem foldSched_nodup (c : Int) (rs : List Reminder) :
    ∀ (js : List Job), (jobIds js).Nodup →
      (jobIds (rs.foldl (fun js2 r => (schedule_reminder_job js2 c r.time r.message).1) js)).Nodup := by
  induction rs with
  | nil => intro js h; exact h
  | cons r rs ih =>
    intro js h
    rw [List.foldl_cons]
    exact ih _ (jobIds_schedule_nodup c r.time r.message h)

theorem jobIds_storeFold_mem :
    ∀ (sts : Store) (js : List Job) (x : String),
      x ∈ jobIds (sts.foldl
          (fun js p => p.2.reminders.foldl
            (fun js2 r => (schedule_reminder_job js2 p.1 r.time r.message).1) js) js) ↔
        x ∈ jobIds js ∨
          ∃ p ∈ sts, ∃ r ∈ p.2.reminders, x = jobId p.1 r.time r.message ∧ timeOK r.time := by
  intro sts
  induction sts with
  | nil => simp
  | cons q rest ih =>
    intro js x
    rw [List.foldl_cons, ih, jobIds_foldSched_mem]
    constructor
    · rintro ((h | ⟨r, hr, h⟩) | ⟨p, hp, r, hr, h⟩)
      · exact Or.inl h
      · exact Or.inr ⟨q, by simp, r, hr, h⟩
      · exact Or.inr ⟨p, by simp [hp], r, hr, h⟩
    · rintro (h | ⟨p, hp, r, hr, h⟩)
      · exact Or.inl (Or.inl h)
      · rcases List.mem_cons.mp hp with rfl | hp'
        · exact Or.inl (Or.inr ⟨r, hr, h⟩)
        · exact Or.inr ⟨p, hp', r, hr, h⟩

theorem storeFold_nodup (sts : Store) :
    ∀ (js : List Job), (jobIds js).Nodup →
      (jobIds (sts.foldl
        (fun js p => p.2.reminders.foldl
          (fun js2 r => (schedule_reminder_job js2 p.1 r.time r.message).1) js) js)).Nodup := by
  induction sts with
  | nil => intro js h; exact h
  | cons q rest ih =>
    intro js h
    rw [List.foldl_cons]
    exact ih _ (foldSched_nodup q.1 q.2.reminders js h)

theorem mem_reminderIds (st : Store) (x : String) :
    x ∈ reminderIds st ↔
      ∃ p ∈ st, ∃ r ∈ p.2.reminders, x = jobId p.1 r.time r.message := by
  simp only [reminderIds, List.mem_flatMap, List.mem_map]
  constructor
  · rintro ⟨p, hp, r, hr, rfl⟩; exact ⟨p, hp, r, hr, rfl⟩
  · rintro ⟨p, hp, r, hr, rfl⟩; exact ⟨p, hp, r, hr, rfl⟩

/-! ## The system invariant -/

theorem TimesValid_ensureUser {st : Store} (u : Int) (h : TimesValid st) :
    TimesValid (ensureUser st u) := by
  unfold ensureUser
  split
  · exact h
  · intro p hp r hr
    rcases List.mem_append.mp hp with hp' | hp'
    · exact h p hp' r hr
    · simp only [List.mem_singleton] at hp'
      rw [hp'] at hr
      simp at hr

theorem TimesValid_updateUser_push {st : Store} {u : Int} {r : Reminder}
    (h : TimesValid st) (hr : (parseHM r.time).isSome) :
    TimesValid (updateUser st u (fun ur => { ur with reminders := ur.reminders ++ [r] })) := by
  intro p' hp' r' hr'
  obtain ⟨p, hp, rfl⟩ := List.mem_map.mp hp'
  by_cases hpu : p.1 = u
  · simp only [hpu, if_pos rfl] at hr'
    rcases List.mem_append.mp hr' with h1 | h1
    · exact h p hp r' h1
    · simp only [List.mem_singleton] at h1
      rw [h1]
      exact hr
  · simp only [if_neg hpu] at hr'
    exact h p hp r' hr'

theorem TimesValid_updateUser_erase {st : Store} {u : Int} {i : Nat}
    (h : TimesValid st) :
    TimesValid (updateUser st u (fun ur => { ur with reminders := ur.reminders.eraseIdx i })) := by
  intro p' hp' r' hr'
  obtain ⟨p, hp, rfl⟩ := List.mem_map.mp hp'
  by_cases hpu : p.1 = u
  · simp only [hpu, if_pos rfl] at hr'
    exact h p hp r' (List.mem_of_mem_eraseIdx hr')
  · simp only [if_neg hpu] at hr'
    exact h p hp r' hr'

theorem TimesValid_updateUser_weights {st : Store} {u : Int} {w : WeightEntry}
    (h : TimesValid st) :
    TimesValid (updateUser st u (fun ur => { ur with weights := ur.weights ++ [w] })) := by
  intro p' hp' r' hr'
  obtain ⟨p, hp, rfl⟩ := List.mem_map.mp hp'
  by_cases hpu : p.1 = u
  · simp only [hpu, if_pos rfl] at hr'
    exact h p hp r' hr'
  · simp only [if_neg hpu] at hr'
    exact h p hp r' hr'

theorem mem_reminderIds_updateUser_push {st : Store} {u : Int} {r : Reminder}
    {x : String} (hx : x ∈ reminderIds st) :
    x ∈ reminderIds (updateUser st u (fun ur => { ur with reminders := ur.reminders ++ [r] })) := by
  rw [mem_reminderIds] at hx ⊢
  obtain ⟨p, hp, r', hr', rfl⟩ := hx
  refine ⟨_, List.mem_map_of_mem _ hp, r', ?_, ?_⟩
  · by_cases hpu : p.1 = u <;> simp [hpu, hr']
  · by_cases hpu : p.1 = u <;> simp [hpu]

theorem jobId_mem_reminderIds_updateUser_push {st : Store} {u : Int} (r : Reminder)
    (hu : u ∈ userKeys st) :
    jobId u r.time r.message ∈
      reminderIds (updateUser st u (fun ur => { ur with reminders := ur.reminders ++ [r] })) := by
  rw [mem_reminderIds]
  obtain ⟨p, hp, hpu⟩ := List.mem_map.mp hu
  refine ⟨_, List.mem_map_of_mem _ hp, r, ?_, ?_⟩
  · simp [hpu]
  · simp [hpu]

theorem reminderIds_updateUser_weights (st : Store) (u : Int) (w : WeightEntry) :
    reminderIds (updateUser st u (fun ur => { ur with weights := ur.weights ++ [w] }))
      = reminderIds st := by
  induction st with
  | nil => rfl
  | cons p rest ih =>
    unfold reminderIds updateUser at ih ⊢
    simp only [List.map_cons, List.flatMap_cons]
    by_cases hpu : p.1 = u <;> simp [hpu, ih]

theorem mem_map_eraseIdx {α β : Type _} {l : List α} {g : α → β} {x : β} {i : Nat} {a : α}
    (hx : x ∈ l.map g) (hget : l[i]? = some a) (hne : x ≠ g a) :
    x ∈ (l.eraseIdx i).map g := by
  obtain ⟨hi, hia⟩ := List.getElem?_eq_some_iff.mp hget
  obtain ⟨b, hb, rfl⟩ := List.mem_map.mp hx
  obtain ⟨⟨j, hj⟩, rfl⟩ := List.mem_iff_get.mp hb
  have hji : j ≠ i := by
    intro he
    apply hne
    rw [← hia]
    subst he
    rfl
  apply List.mem_map_of_mem
  rcases Nat.lt_or_ge j i with hlt | hge
  · have h1 : (l.eraseIdx i)[j]? = l[j]? := List.getElem?_eraseIdx_of_lt l i j hlt
    have h2 : l[j]? = some (l.get ⟨j, hj⟩) := List.getElem?_eq_getElem hj
    exact List.getElem?_mem (h1.trans h2)
  · have h1 : (l.eraseIdx i)[j - 1]? = l[j - 1 + 1]? :=
      List.getElem?_eraseIdx_of_ge l i (j - 1) (by omega)
    have hj1 : j - 1 + 1 = j := by omega
    rw [hj1] at h1
    have h2 : l[j]? = some (l.get ⟨j, hj⟩) := List.getElem?_eq_getElem hj
    exact List.getElem?_mem (h1.trans h2)

theorem reminderIds_append (a b : Store) :
    reminderIds (a ++ b) = reminderIds a ++ reminderIds b := by
  simp [reminderIds]

theorem reminderIds_cons (p : Int × UserRecord) (st : Store) :
    reminderIds (p :: st) =
      p.2.reminders.map (fun r => jobId p.1 r.time r.message) ++ reminderIds st := by
  simp [reminderIds]

theorem mem_reminderIds_erase {st : Store} {u : Int} {i : Nat} {r : Reminder}
    (hnd : (userKeys st).Nodup) (hu : u ∈ userKeys st) {x : String}
    (hx : x ∈ reminderIds st)
    (hget : (remindersOf st u)[i]? = some r)
    (hne : x ≠ jobId u r.time r.message) :
    x ∈ reminderIds (updateUser st u (fun ur => { ur with reminders := ur.reminders.eraseIdx i })) := by
  obtain ⟨pre, ur, suf, hst, hpre, hsuf, hlk, hupd⟩ := store_decomp hnd hu
  have hrem : remindersOf st u = ur.reminders := by
    unfold remindersOf
    rw [hlk]
    rfl
  rw [hrem] at hget
  rw [hupd]
  rw [hst] at hx
  rw [reminderIds_append, reminderIds_cons] at hx
  rw [reminderIds_append, reminderIds_cons]
  simp only [List.mem_append] at hx ⊢
  rcases hx with hx | hx | hx
  · exact Or.inl hx
  · exact Or.inr (Or.inl (mem_map_eraseIdx hx hget hne))
  · exact Or.inr (Or.inr hx)

/-! ## Handler unfolding equations -/

/-- `add_reminder` on a `strptime`-invalid time: reply and change
nothing. -/
theorem add_reminder_eq_invalid (s : SysState) (u : Int) {t : String} (m : String)
    (h : parseHM t = none) : add_reminder s u t m = (s, .invalidTime) := by
  simp [add_reminder, add_reminder_get_time, h]

/-- `add_reminder` on a valid time and nonempty message: append the
reminder, persist, and run the scheduler step. -/
theorem add_reminder_eq_success (s : SysState) (u : Int) {t : String} {m : String}
    (ht : (parseHM t).isSome) (hm : m ≠ "") :
    add_reminder s u t m =
      (⟨updateUser (ensureUser s.store u) u
          (fun ur => { ur with reminders := ur.reminders ++ [⟨t, m⟩] }),
        (schedule_reminder_job s.jobs u t m).1,
        some (updateUser (ensureUser s.store u) u
          (fun ur => { ur with reminders := ur.reminders ++ [⟨t, m⟩] }))⟩,
       if (schedule_reminder_job s.jobs u t m).2 = .scheduled then .scheduled
       else .schedFailed) := by
  have htne : t ≠ "" := by
    intro he
    rw [he] at ht
    simp [parseHM, splitOnChar] at ht
  simp [add_reminder, add_reminder_get_time, ht, htne, hm]

/-- `delete_reminder` with no argument. -/
theorem delete_reminder_eq_noArgs (s : SysState) (u : Int) :
    delete_reminder s u [] = (⟨ensureUser s.store u, s.jobs, s.file⟩, .noArgs) := rfl

/-- `delete_reminder` with an argument Python `int` rejects. -/
theorem delete_reminder_eq_notInt (s : SysState) (u : Int) {a : String} (rest : List String)
    (hk : pyInt a.data = none) :
    delete_reminder s u (a :: rest) = (⟨ensureUser s.store u, s.jobs, s.file⟩, .notInt) := by
  simp [delete_reminder, hk]

/-- `delete_reminder` with an out-of-range index. -/
theorem delete_reminder_eq_oob (s : SysState) (u : Int) {a : String} (rest : List String)
    {k : Int} (hk : pyInt a.data = some k)
    (hcond : ¬(0 ≤ k - 1 ∧ (k - 1).toNat < (remindersOf (ensureUser s.store u) u).length)) :
    delete_reminder s u (a :: rest) = (⟨ensureUser s.store u, s.jobs, s.file⟩, .outOfRange) := by
  simp only [delete_reminder, hk]
  rw [dif_neg hcond]

/-- `delete_reminder` on an in-range index: pop the entry, persist, and
remove the popped entry's job. -/
theorem delete_reminder_eq_success (s : SysState) (u : Int) {a : String} (rest : List String)
    {k : Int} (hk : pyInt a.data = some k)
    (hcond : 0 ≤ k - 1 ∧ (k - 1).toNat < (remindersOf (ensureUser s.store u) u).length) :
    delete_reminder s u (a :: rest) =
      (⟨updateUser (ensureUser s.store u) u
          (fun ur => { ur with reminders := ur.reminders.eraseIdx (k - 1).toNat }),
        s.jobs.filter (fun j => j.id ≠ jobId u
          ((remindersOf (ensureUser s.store u) u).get ⟨(k - 1).toNat, hcond.2⟩).time
          ((remindersOf (ensureUser s.store u) u).get ⟨(k - 1).toNat, hcond.2⟩).message),
        some (updateUser (ensureUser s.store u) u
          (fun ur => { ur with reminders := ur.reminders.eraseIdx (k - 1).toNat }))⟩,
       .deleted ((remindersOf (ensureUser s.store u) u).get ⟨(k - 1).toNat, hcond.2⟩)) := by
  simp only [delete_reminder, hk]
  rw [dif_pos hcond]
  rfl

/-- `add_weight` when both inputs validate: append the entry and
persist. -/
theorem add_weight_eq_saved (s : SysState) (u : Int) {wstr dstr today : String}
    {w : Dec} {d : String}
    (hw : add_weight_get_weight wstr = .parsed w)
    (hd : add_weight_get_date_resolve dstr today = some d) :
    add_weight s u wstr dstr today =
      (⟨updateUser (ensureUser s.store u) u
          (fun ur => { ur with weights := ur.weights ++ [⟨d, w⟩] }),
        s.jobs,
        some (updateUser (ensureUser s.store u) u
          (fun ur => { ur with weights := ur.weights ++ [⟨d, w⟩] }))⟩, .saved w d) := by
  simp [add_weight, hw, hd]

/-- `add_weight` when an input fails to validate: nothing changes. -/
theorem add_weight_eq_fail (s : SysState) (u : Int) {wstr : String} (dstr today : String)
    (h : (∀ w, add_weight_get_weight wstr ≠ .parsed w) ∨
      add_weight_get_date_resolve dstr today = none) :
    (add_weight s u wstr dstr today).1 = s := by
  cases hw : add_weight_get_weight wstr with
  | indexError => simp [add_weight, hw]
  | reprompt => simp [add_weight, hw]
  | parsed w =>
    rcases h with h | h
    · exact absurd hw (h w)
    · simp [add_weight, hw, h]

/-! ## Invariant preservation -/

theorem Inv_initState : Inv initState := by
  refine ⟨?_, ?_, ?_, ?_⟩ <;> simp [TimesValid, initState, userKeys, jobIds]

theorem Inv_store_ensure {s : SysState} (u : Int) (h : Inv s) :
    Inv ⟨ensureUser s.store u, s.jobs, s.file⟩ := by
  obtain ⟨htv, hjb, hjn, hkn⟩ := h
  refine ⟨TimesValid_ensureUser u htv, ?_, hjn, userKeys_ensureUser_nodup u hkn⟩
  intro j hj
  dsimp only
  rw [reminderIds_ensureUser]
  exact hjb j hj

theorem Inv_add_reminder {s : SysState} (h : Inv s) (u : Int) (t m : String) :
    Inv (add_reminder s u t m).1 := by
  by_cases hsome : (parseHM t).isSome
  · by_cases hm : m ≠ ""
    · obtain ⟨htv, hjb, hjn, hkn⟩ := h
      rw [add_reminder_eq_success s u hsome hm]
      refine ⟨?_, ?_, ?_, ?_⟩
      · exact TimesValid_updateUser_push (TimesValid_ensureUser u htv) hsome
      · intro j hj
        dsimp only at hj ⊢
        rcases schedule_mem_forward hj with hj' | hj'
        · apply mem_reminderIds_updateUser_push
          rw [reminderIds_ensureUser]
          exact hjb j hj'
        · rw [hj']
          exact jobId_mem_reminderIds_updateUser_push ⟨t, m⟩ (mem_keys_ensureUser s.store u)
      · exact jobIds_schedule_nodup u t m hjn
      · dsimp only
        rw [userKeys_updateUser]
        exact userKeys_ensureUser_nodup u hkn
    · rw [not_not] at hm
      have : (add_reminder s u t m).1 = s := by
        simp [add_reminder, add_reminder_get_time, hsome, hm]
      rw [this]
      exact h
  · rw [Option.not_isSome_iff_eq_none] at hsome
    rw [add_reminder_eq_invalid s u m hsome]
    exact h

theorem Inv_delete_reminder {s : SysState} (h : Inv s) (u : Int) (args : List String) :
    Inv (delete_reminder s u args).1 := by
  obtain ⟨htv, hjb, hjn, hkn⟩ := h
  cases args with
  | nil =>
    rw [delete_reminder_eq_noArgs]
    exact Inv_store_ensure u ⟨htv, hjb, hjn, hkn⟩
  | cons a rest =>
    cases hk : pyInt a.data with
    | none =>
      rw [delete_reminder_eq_notInt s u rest hk]
      exact Inv_store_ensure u ⟨htv, hjb, hjn, hkn⟩
    | some k =>
      by_cases hcond : 0 ≤ k - 1 ∧ (k - 1).toNat < (remindersOf (ensureUser s.store u) u).length
      · rw [delete_reminder_eq_success s u rest hk hcond]
        refine ⟨?_, ?_, ?_, ?_⟩
        · exact TimesValid_updateUser_erase (TimesValid_ensureUser u htv)
        · intro j hj
          dsimp only at hj ⊢
          have hj' := List.mem_filter.mp hj
          have hne : j.id ≠ jobId u
              ((remindersOf (ensureUser s.store u) u).get ⟨(k - 1).toNat, hcond.2⟩).time
              ((remindersOf (ensureUser s.store u) u).get ⟨(k - 1).toNat, hcond.2⟩).message := by
            simpa using hj'.2
          have hget : (remindersOf (ensureUser s.store u) u)[(k - 1).toNat]? =
              some ((remindersOf (ensureUser s.store u) u).get ⟨(k - 1).toNat, hcond.2⟩) :=
            List.getElem?_eq_getElem hcond.2
          apply mem_reminderIds_erase (userKeys_ensureUser_nodup u hkn)
            (mem_keys_ensureUser s.store u) _ hget hne
          rw [reminderIds_ensureUser]
          exact hjb j hj'.1
        · dsimp only
          exact hjn.sublist (List.Sublist.map _ (List.filter_sublist s.jobs))
        · dsimp only
          rw [userKeys_updateUser]
          exact userKeys_ensureUser_nodup u hkn
      · rw [delete_reminder_eq_oob s u rest hk hcond]
        exact Inv_store_ensure u ⟨htv, hjb, hjn, hkn⟩

theorem Inv_add_weight {s : SysState} (h : Inv s) (u : Int) (wstr dstr today : String) :
    Inv (add_weight s u wstr dstr today).1 := by
  obtain ⟨htv, hjb, hjn, hkn⟩ := h
  cases hw : add_weight_get_weight wstr with
  | indexError =>
    rw [add_weight_eq_fail s u dstr today (Or.inl (fun w hw2 => by rw [hw] at hw2; cases hw2))]
    exact ⟨htv, hjb, hjn, hkn⟩
  | reprompt =>
    rw [add_weight_eq_fail s u dstr today (Or.inl (fun w hw2 => by rw [hw] at hw2; cases hw2))]
    exact ⟨htv, hjb, hjn, hkn⟩
  | parsed w =>
    cases hd : add_weight_get_date_resolve dstr today with
    | none =>
      rw [add_weight_eq_fail s u dstr today (Or.inr hd)]
      exact ⟨htv, hjb, hjn, hkn⟩
    | some d =>
      rw [add_weight_eq_saved s u hw hd]
      refine ⟨?_, ?_, hjn, ?_⟩
      · exact TimesValid_updateUser_weights (TimesValid_ensureUser u htv)
      · intro j hj
        dsimp only at hj ⊢
        rw [reminderIds_updateUser_weights, reminderIds_ensureUser]
        exact hjb j hj
      · dsimp only
        rw [userKeys_updateUser]
        exact userKeys_ensureUser_nodup u hkn

theorem Inv_list_reminders {s : SysState} (h : Inv s) (u : Int) :
    Inv (list_reminders s u).1 :=
  Inv_store_ensure u h

theorem Inv_view_weights {s : SysState} (h : Inv s) (u : Int) :
    Inv (view_weights s u).1 :=
  Inv_store_ensure u h

theorem Inv_repopulate {s : SysState} (h : Inv s) : Inv (repopulate s) := by
  obtain ⟨htv, hjb, hjn, hkn⟩ := h
  refine ⟨htv, ?_, ?_, hkn⟩
  · intro j hj
    have hid : j.id ∈ jobIds (repopulate s).jobs := List.mem_map_of_mem _ hj
    rcases (jobIds_storeFold_mem s.store s.jobs j.id).mp hid with h' | ⟨p, hp, r, hr, h', _⟩
    · obtain ⟨j', hj', hid'⟩ := List.mem_map.mp h'
      rw [← hid']
      exact hjb j' hj'
    · rw [mem_reminderIds]
      exact ⟨p, hp, r, hr, h'⟩
  · exact storeFold_nodup s.store s.jobs hjn

/-- Every reachable state satisfies the invariant. -/
theorem Inv_reachable {s : SysState} (h : Reachable s) : Inv s := by
  induction h with
  | init => exact Inv_initState
  | addR s u t m _ ih => exact Inv_add_reminder ih u t m
  | delR s u args _ ih => exact Inv_delete_reminder ih u args
  | addW s u wstr dstr today _ ih => exact Inv_add_weight ih u wstr dstr today
  | listR s u _ ih => exact Inv_list_reminders ih u
  | viewW s u _ ih => exact Inv_view_weights ih u
  | repop s _ ih => exact Inv_repopulate ih

/-! ## Lookup/update equations -/

theorem lookupUser_updateUser (st : Store) (u : Int) (f : UserRecord → UserRecord) :
    lookupUser (updateUser st u f) u = (lookupUser st u).map f := by
  induction st with
  | nil => rfl
  | cons p rest ih =>
    by_cases hp : p.1 = u
    · unfold updateUser lookupUser
      rw [List.map_cons, if_pos hp]
      rw [List.find?_cons_of_pos _ (by simp [hp]), List.find?_cons_of_pos _ (by simp [hp])]
      rfl
    · unfold updateUser lookupUser at ih ⊢
      rw [List.map_cons, if_neg hp]
      rw [List.find?_cons_of_neg _ (by simp [hp]), List.find?_cons_of_neg _ (by simp [hp])]
      exact ih

theorem lookupUser_isSome_of_mem {st : Store} {u : Int} (h : u ∈ userKeys st) :
    (lookupUser st u).isSome := by
  obtain ⟨p, hp, hpu⟩ := List.mem_map.mp h
  unfold lookupUser
  have hf : (List.find? (fun p => decide (p.1 = u)) st).isSome :=
    List.find?_isSome.mpr ⟨p, hp, by simp [hpu]⟩
  obtain ⟨q, hq⟩ := Option.isSome_iff_exists.mp hf
  rw [hq]
  rfl

theorem lookupUser_ensureUser (st : Store) (u : Int) :
    lookupUser (ensureUser st u) u = some ((lookupUser st u).getD ⟨[], []⟩) := by
  unfold ensureUser
  split
  case isTrue hany =>
    have hs := lookupUser_isSome_of_mem ((any_key_iff st u).mp hany)
    obtain ⟨ur, hur⟩ := Option.isSome_iff_exists.mp hs
    rw [hur]
    rfl
  case isFalse hany =>
    have hno : ∀ p ∈ st, p.1 ≠ u := by
      intro p hp he
      rw [Bool.not_eq_true, List.any_eq_false] at hany
      exact absurd (by simp [he] : (fun p => decide (p.1 = u)) p = true)
        (by simpa using hany p hp)
    unfold lookupUser
    rw [List.find?_append, List.find?_eq_none.mpr (fun p hp => by simp [hno p hp])]
    simp

theorem remindersOf_after_push (st : Store) (u : Int) (r : Reminder) :
    remindersOf (updateUser (ensureUser st u) u
        (fun ur => { ur with reminders := ur.reminders ++ [r] })) u
      = remindersOf st u ++ [r] := by
  unfold remindersOf
  rw [lookupUser_updateUser, lookupUser_ensureUser]
  cases hl : lookupUser st u <;> simp [hl]

theorem remindersOf_after_erase (st : Store) (u : Int) (i : Nat) :
    remindersOf (updateUser (ensureUser st u) u
        (fun ur => { ur with reminders := ur.reminders.eraseIdx i })) u
      = (remindersOf st u).eraseIdx i := by
  unfold remindersOf
  rw [lookupUser_updateUser, lookupUser_ensureUser]
  cases hl : lookupUser st u <;> simp [hl]

theorem weightsOf_after_push (st : Store) (u : Int) (w : WeightEntry) :
    weightsOf (updateUser (ensureUser st u) u
        (fun ur => { ur with weights := ur.weights ++ [w] })) u
      = weightsOf st u ++ [w] := by
  unfold weightsOf
  rw [lookupUser_updateUser, lookupUser_ensureUser]
  cases hl : lookupUser st u <;> simp [hl]

theorem ensureUser_of_mem {st : Store} {u : Int} (h : u ∈ userKeys st) :
    ensureUser st u = st := by
  unfold ensureUser
  rw [if_pos ((any_key_iff st u).mpr h)]

/-! ## Lexicographic-order and sorting lemmas -/

theorem listLt_asymm : ∀ {a b : List Char}, listLt a b = true → listLt b a = false
  | [], [], h => by simp [listLt] at h
  | [], _ :: _, _ => by simp [listLt]
  | _ :: _, [], h => by simp [listLt] at h
  | x :: as, y :: bs, h => by
    unfold listLt at h ⊢
    by_cases hxy : x < y
    · rw [if_neg (lt_asymm hxy), if_pos hxy]
    · rw [if_neg hxy] at h
      by_cases hyx : y < x
      · rw [if_pos hyx] at h
        exact absurd h (by simp)
      · rw [if_neg hyx] at h
        rw [if_neg hyx, if_neg hxy]
        exact listLt_asymm h

theorem listLt_cotrans : ∀ (a b c : List Char),
    listLt a c = true → listLt a b = true ∨ listLt b c = true
  | [], b, c :: cs, _ => by
    cases b with
    | nil => exact Or.inr (by simp [listLt])
    | cons y bs => exact Or.inl (by simp [listLt])
  | [], _, [], h => by simp [listLt] at h
  | _ :: _, _, [], h => by simp [listLt] at h
  | x :: as, [], z :: cs, _ => Or.inr (by simp [listLt])
  | x :: as, y :: bs, z :: cs, h => by
    unfold listLt at h ⊢
    have hxz : x < z ∨ (¬ x < z ∧ ¬ z < x ∧ listLt as cs = true) := by
      by_cases h1 : x < z
      · exact Or.inl h1
      · rw [if_neg h1] at h
        by_cases h2 : z < x
        · rw [if_pos h2] at h
          exact absurd h (by simp)
        · rw [if_neg h2] at h
          exact Or.inr ⟨h1, h2, h⟩
    rcases lt_trichotomy x y with hxy | hxy | hxy
    · left
      rw [if_pos hxy]
    · subst hxy
      rcases hxz with h1 | ⟨h1, h2, h3⟩
      · right
        rw [if_pos h1]
      · have heq : x = z := le_antisymm (not_lt.mp h2) (not_lt.mp h1)
        subst heq
        simp only [if_neg h1]
        exact listLt_cotrans as bs cs h3
    · right
      have hyz : y < z := by
        rcases hxz with h1 | ⟨h1, h2, _⟩
        · exact lt_trans hxy h1
        · have hex : x = z := le_antisymm (not_lt.mp h2) (not_lt.mp h1)
          exact hex ▸ hxy
      rw [if_pos hyz]

theorem insertByDate_perm (w : WeightEntry) :
    ∀ (l : List WeightEntry), (insertByDate w l).Perm (w :: l)
  | [] => List.Perm.refl _
  | x :: xs => by
    unfold insertByDate
    by_cases hc : listLt x.date.data w.date.data = true
    · rw [if_pos hc]
      exact ((insertByDate_perm w xs).cons x).trans (List.Perm.swap w x xs)
    · rw [if_neg hc]

theorem sortByDate_perm : ∀ (l : List WeightEntry), (sortByDate l).Perm l
  | [] => List.Perm.refl _
  | x :: xs => (insertByDate_perm x (sortByDate xs)).trans ((sortByDate_perm xs).cons x)

theorem pairwise_insertByDate (w : WeightEntry) (l : List WeightEntry)
    (h : List.Pairwise (fun a b => strLe a.date b.date = true) l) :
    List.Pairwise (fun a b => strLe a.date b.date = true) (insertByDate w l) := by
  induction l with
  | nil => simp [insertByDate]
  | cons x xs ih =>
    rcases List.pairwise_cons.mp h with ⟨hx, hxs⟩
    unfold insertByDate
    by_cases hc : listLt x.date.data w.date.data = true
    · rw [if_pos hc]
      rw [List.pairwise_cons]
      refine ⟨?_, ih hxs⟩
      intro b hb
      rcases List.mem_cons.mp ((insertByDate_perm w xs).mem_iff.mp hb) with rfl | hb'
      · unfold strLe
        rw [listLt_asymm hc]
        rfl
      · exact hx b hb'
    · rw [if_neg hc]
      rw [List.pairwise_cons]
      refine ⟨?_, h⟩
      intro b hb
      rcases List.mem_cons.mp hb with rfl | hb'
      · have hc' : listLt b.date.data w.date.data = false := by
          simpa using hc
        unfold strLe
        rw [hc']
        rfl
      · have hxb : listLt b.date.data x.date.data = false := by
          have := hx b hb'
          unfold strLe at this
          simpa using this
        have hbw : listLt b.date.data w.date.data = false := by
          by_contra hbw
          rw [Bool.not_eq_false] at hbw
          rcases listLt_cotrans b.date.data x.date.data w.date.data hbw with h4 | h4
          · rw [hxb] at h4
            cases h4
          · exact hc h4
        unfold strLe
        rw [hbw]
        rfl

theorem pairwise_sortByDate (l : List WeightEntry) :
    List.Pairwise (fun a b => strLe a.date b.date = true) (sortByDate l) := by
  induction l with
  | nil => simp [sortByDate]
  | cons x xs ih => exact pairwise_insertByDate x (sortByDate xs) ih

/-! ## Job-identity injectivity lemmas -/

theorem append_sep_inj {sep : Char} : ∀ (a b r1 r2 : List Char),
    sep ∉ a → sep ∉ b → a ++ sep :: r1 = b ++ sep :: r2 → a = b ∧ r1 = r2
  | [], [], r1, r2, _, _, h => by
    simp only [List.nil_append, List.cons.injEq] at h
    exact ⟨rfl, h.2⟩
  | [], y :: b, r1, r2, _, hb, h => by
    simp only [List.nil_append, List.cons_append, List.cons.injEq] at h
    exact absurd (h.1 ▸ List.mem_cons_self y b) hb
  | x :: a, [], r1, r2, ha, _, h => by
    simp only [List.nil_append, List.cons_append, List.cons.injEq] at h
    exact absurd (h.1.symm ▸ List.mem_cons_self x a) ha
  | x :: a, y :: b, r1, r2, ha, hb, h => by
    simp only [List.cons_append, List.cons.injEq] at h
    have ha' : sep ∉ a := fun hm => ha (List.mem_cons_of_mem x hm)
    have hb' : sep ∉ b := fun hm => hb (List.mem_cons_of_mem y hm)
    obtain ⟨hab, hr⟩ := append_sep_inj a b r1 r2 ha' hb' h.2
    exact ⟨by rw [h.1, hab], hr⟩

theorem normMsg_unmap {m : String} (h : '_' ∉ m.data) :
    (normMsg m).map (fun c => if c = '_' then ' ' else c) = m.data := by
  unfold normMsg
  rw [List.map_map]
  have hpt : ∀ c ∈ m.data,
      ((fun c => if c = '_' then ' ' else c) ∘ (fun c => if c = ' ' then '_' else c)) c = c := by
    intro c hc
    by_cases hsp : c = ' '
    · simp [hsp]
    · have hus : c ≠ '_' := fun he => h (he ▸ hc)
      simp [Function.comp, hsp, hus]
  exact (List.map_congr_left hpt).trans (List.map_id m.data)

theorem normMsg_inj {m1 m2 : String} (h1 : '_' ∉ m1.data) (h2 : '_' ∉ m2.data)
    (h : normMsg m1 = normMsg m2) : m1 = m2 := by
  have hd : m1.data = m2.data := by
    rw [← normMsg_unmap h1, ← normMsg_unmap h2, h]
  exact congrArg String.mk hd

theorem digitChar_isDigit (n : Nat) : isDigitChar (digitChar n) = true := by
  unfold digitChar
  split <;> decide

theorem digitChar_val (n : Nat) (h : n < 10) : (digitChar n).toNat - 48 = n := by
  interval_cases n <;> decide

theorem natReprAux_digits : ∀ (fuel n : Nat), ∀ c ∈ natReprAux fuel n, isDigitChar c = true
  | 0, _, c, hc => absurd hc (by simp [natReprAux])
  | fuel + 1, n, c, hc => by
    unfold natReprAux at hc
    by_cases h10 : n < 10
    · rw [if_pos h10] at hc
      simp only [List.mem_singleton] at hc
      rw [hc]
      exact digitChar_isDigit n
    · rw [if_neg h10] at hc
      rcases List.mem_append.mp hc with hc' | hc'
      · exact natReprAux_digits fuel (n / 10) c hc'
      · simp only [List.mem_singleton] at hc'
        rw [hc']
        exact digitChar_isDigit (n % 10)

theorem digitsVal_append_single (xs : List Char) (c : Char) :
    digitsVal (xs ++ [c]) = digitsVal xs * 10 + (c.toNat - 48) := by
  unfold digitsVal
  rw [List.foldl_append]
  rfl

/-- `natRepr` is a faithful decimal rendering: reading its digits back
gives the number, so `str(n)` is injective on naturals. -/
theorem natReprAux_val : ∀ (fuel n : Nat), n < fuel → digitsVal (natReprAux fuel n) = n
  | 0, _, h => absurd h (by omega)
  | fuel + 1, n, h => by
    unfold natReprAux
    by_cases h10 : n < 10
    · rw [if_pos h10]
      show digitsVal [digitChar n] = n
      unfold digitsVal
      simp [digitChar_val n h10]
    · rw [if_neg h10]
      rw [digitsVal_append_single]
      rw [natReprAux_val fuel (n / 10) (by omega), digitChar_val (n % 10) (by omega)]
      omega

theorem natRepr_val (n : Nat) : digitsVal (natRepr n) = n :=
  natReprAux_val (n + 1) n (by omega)

theorem natRepr_inj {a b : Nat} (h : natRepr a = natRepr b) : a = b := by
  have hv := congrArg digitsVal h
  rwa [natRepr_val, natRepr_val] at hv

/-- Python `str(int)` is injective: the decimal digits determine the
magnitude, and the leading `-` of a negative never looks like a digit. -/
theorem intRepr_inj : ∀ {i j : Int}, intRepr i = intRepr j → i = j
  | .ofNat a, .ofNat b, h => by
    have h' : natRepr a = natRepr b := h
    rw [natRepr_inj h']
  | .ofNat a, .negSucc b, h => by
    have h' : natRepr a = '-' :: natRepr (b + 1) := h
    have hmem : '-' ∈ natRepr a := by
      rw [h']
      exact List.mem_cons_self _ _
    exact absurd (natReprAux_digits (a + 1) a '-' hmem) (by decide)
  | .negSucc a, .ofNat b, h => by
    have h' : '-' :: natRepr (a + 1) = natRepr b := h
    have hmem : '-' ∈ natRepr b := by
      rw [← h']
      exact List.mem_cons_self _ _
    exact absurd (natReprAux_digits (b + 1) b '-' hmem) (by decide)
  | .negSucc a, .negSucc b, h => by
    have h' : '-' :: natRepr (a + 1) = '-' :: natRepr (b + 1) := h
    injection h' with h1 h2
    have hab : a = b := by
      have := natRepr_inj h2
      omega
    rw [hab]

/-- Recipient ids never contribute an underscore to the job id. -/
theorem underscore_not_mem_intRepr (i : Int) : '_' ∉ intRepr i := by
  intro hmem
  cases i with
  | ofNat n =>
    have h' : '_' ∈ natRepr n := hmem
    exact absurd (natReprAux_digits (n + 1) n '_' h') (by decide)
  | negSucc n =>
    have h' : '_' ∈ '-' :: natRepr (n + 1) := hmem
    rcases List.mem_cons.mp h' with he | h''
    · exact absurd he (by decide)
    · exact absurd (natReprAux_digits (n + 2) (n + 1) '_' h'') (by decide)

/-! ## Claim theorems -/

/-- C3: for every time string not of valid 24-hour HH:MM form (i.e.
rejected by `strptime('%H:%M')`, e.g. "25:00"), the add-reminder
operation fails with the invalid-time-format reply and the entire system
state — store, persisted file, and scheduler job table — is unchanged
(no entry appended, nothing persisted, no job created). -/
theorem C3_add_reminder_fail_fast (s : SysState) (u : Int) (t m : String)
    (h : parseHM t = none) :
    add_reminder s u t m = (s, .invalidTime) :=
  add_reminder_eq_invalid s u m h

theorem C3_witness :
    parseHM "25:00" = none ∧
      add_reminder initState 42 "25:00" "Feed the dog" = (initState, .invalidTime) :=
  ⟨by decide, C3_add_reminder_fail_fast initState 42 "25:00" "Feed the dog" (by decide)⟩

/-- C4 counterexample: the claim quantifies over every user with n
persisted reminders and every out-of-range index; for a user with no
record (n = 0) and index 0, `delete_reminder` does report out-of-range
but the Store is NOT left unchanged: `get_user_data`, called before the
bounds check, inserts a fresh empty record for the user. -/
theorem C4_counterexample :
    (delete_reminder initState 5 ["0"]).2 = .outOfRange ∧
      (delete_reminder initState 5 ["0"]).1.store ≠ initState.store := by
  constructor
  · decide
  · decide

/-- C4 amended: for every user that already has a Store record with n
reminders and every integer index outside [1, n] (in particular 0 and
n + 1), `delete_reminder` fails with the out-of-range reply and leaves
the whole state — the Store, the scheduler job table, and the persisted
file — unchanged.  (For a user with no record, the store additionally
gains a fresh empty record; nothing else changes.) -/
theorem C4_delete_oob_unchanged (s : SysState) (u : Int) (a : String) (rest : List String)
    (k : Int) (hmem : u ∈ userKeys s.store) (hk : pyInt a.data = some k)
    (hout : k < 1 ∨ ((remindersOf s.store u).length : Int) < k) :
    delete_reminder s u (a :: rest) = (s, .outOfRange) := by
  have hens : ensureUser s.store u = s.store := ensureUser_of_mem hmem
  have hcond : ¬(0 ≤ k - 1 ∧ (k - 1).toNat < (remindersOf (ensureUser s.store u) u).length) := by
    rw [hens]
    rintro ⟨h1, h2⟩
    rcases hout with h | h <;> omega
  rw [delete_reminder_eq_oob s u rest hk hcond, hens]

theorem C4_witness :
    delete_reminder ⟨[(3, ⟨[], [⟨"08:30", "walk"⟩]⟩)], [], none⟩ 3 ["2"] =
      (⟨[(3, ⟨[], [⟨"08:30", "walk"⟩]⟩)], [], none⟩, .outOfRange) :=
  C4_delete_oob_unchanged ⟨[(3, ⟨[], [⟨"08:30", "walk"⟩]⟩)], [], none⟩ 3 "2" [] 2
    (by decide) (by decide) (by decide)

/-- C6 counterexample: the claim says `load_data` never raises for any
state of the backing file, but for an existing-yet-unreadable file the
`open` call raises an `OSError` that the handler — which catches only
`json.JSONDecodeError` — lets escape. -/
theorem C6_counterexample :
    load_data (.unreadable "PermissionError") [] = .error "PermissionError" := rfl

/-- C6 amended: `load_data` fails soft for an absent file (keeps the
current, startup-empty, map) and for a malformed file (installs the
empty map after catching `json.JSONDecodeError`); an existing but
unreadable file instead raises an uncaught exception. -/
theorem C6_load_data_soft (ud : Store) (t e : String) :
    load_data .absent ud = .ok ud ∧
      load_data (.malformed t) ud = .ok [] ∧
      load_data (.unreadable e) ud = .error e :=
  ⟨rfl, rfl, rfl⟩

/-- C10 counterexample: the claim says a `deleteReminder` invocation
with a missing argument leaves the Store completely unchanged, but for a
user with no record the handler's initial `get_user_data` call inserts a
fresh empty record before the argument check. -/
theorem C10_counterexample :
    (delete_reminder initState 5 []).2 = .noArgs ∧
      (delete_reminder initState 5 []).1.store ≠ initState.store := by
  constructor
  · decide
  · decide

/-- C10 amended: for every user that already has a Store record, a
`deleteReminder` invocation whose argument is missing or not parseable
as an integer reports an error reply (no uncaught exception: the
`int()` conversion's ValueError is caught) and leaves the whole state
unchanged — the conversion happens before any mutation.  (For a
first-seen user an empty record is additionally created in memory;
reminders, jobs and the persisted file are still untouched.) -/
theorem C10_delete_badarg_unchanged (s : SysState) (u : Int) (args : List String)
    (hmem : u ∈ userKeys s.store)
    (hbad : args = [] ∨ ∃ a rest, args = a :: rest ∧ pyInt a.data = none) :
    (delete_reminder s u args).1 = s ∧
      ((delete_reminder s u args).2 = .noArgs ∨ (delete_reminder s u args).2 = .notInt) := by
  have hens : ensureUser s.store u = s.store := ensureUser_of_mem hmem
  rcases hbad with rfl | ⟨a, rest, rfl, hk⟩
  · rw [delete_reminder_eq_noArgs, hens]
    exact ⟨rfl, Or.inl rfl⟩
  · rw [delete_reminder_eq_notInt s u rest hk, hens]
    exact ⟨rfl, Or.inr rfl⟩

theorem C10_witness :
    (delete_reminder ⟨[(3, ⟨[], []⟩)], [], none⟩ 3 ["one"]).1 = ⟨[(3, ⟨[], []⟩)], [], none⟩ ∧
      ((delete_reminder ⟨[(3, ⟨[], []⟩)], [], none⟩ 3 ["one"]).2 = .noArgs ∨
        (delete_reminder ⟨[(3, ⟨[], []⟩)], [], none⟩ 3 ["one"]).2 = .notInt) :=
  C10_delete_badarg_unchanged ⟨[(3, ⟨[], []⟩)], [], none⟩ 3 ["one"]
    (by decide) (Or.inr ⟨"one", [], rfl, by decide⟩)

/-- C5: for a user whose reminder list has the entry `r` at 1-based
position k (in range), `delete_reminder k` removes exactly that entry:
the stored list becomes `eraseIdx (k-1)` of the old one, its length
drops by one, every entry before position k is unchanged, every entry
formerly at position k+1.. is afterwards one position earlier, and the
handler reports exactly `r` as deleted. -/
theorem C5_delete_positional (s : SysState) (u : Int) (a : String) (rest : List String)
    (k : Nat) (r : Reminder) (hk : pyInt a.data = some (k : Int))
    (h1 : 1 ≤ k) (h2 : k ≤ (remindersOf s.store u).length)
    (hr : (remindersOf s.store u)[k - 1]? = some r) :
    remindersOf (delete_reminder s u (a :: rest)).1.store u =
        (remindersOf s.store u).eraseIdx (k - 1) ∧
      (delete_reminder s u (a :: rest)).2 = .deleted r ∧
      (remindersOf (delete_reminder s u (a :: rest)).1.store u).length =
        (remindersOf s.store u).length - 1 ∧
      (∀ i, i < k - 1 →
        (remindersOf (delete_reminder s u (a :: rest)).1.store u)[i]? =
          (remindersOf s.store u)[i]?) ∧
      (∀ i, k - 1 ≤ i →
        (remindersOf (delete_reminder s u (a :: rest)).1.store u)[i]? =
          (remindersOf s.store u)[i + 1]?) := by
  have htn : ((k : Int) - 1).toNat = k - 1 := by omega
  have hcond : 0 ≤ (k : Int) - 1 ∧
      ((k : Int) - 1).toNat < (remindersOf (ensureUser s.store u) u).length := by
    rw [remindersOf_ensureUser]
    constructor
    · omega
    · omega
  rw [delete_reminder_eq_success s u rest hk hcond]
  have hstore : remindersOf (updateUser (ensureUser s.store u) u
      (fun ur => { ur with reminders := ur.reminders.eraseIdx ((k : Int) - 1).toNat })) u
      = (remindersOf s.store u).eraseIdx (k - 1) := by
    rw [remindersOf_after_erase, htn]
  have hget : (remindersOf (ensureUser s.store u) u).get
      ⟨((k : Int) - 1).toNat, hcond.2⟩ = r := by
    have he : (remindersOf (ensureUser s.store u) u)[((k : Int) - 1).toNat]? =
        (remindersOf s.store u)[k - 1]? := by
      rw [remindersOf_ensureUser, htn]
    have hsome := List.getElem?_eq_getElem hcond.2
    rw [he, hr] at hsome
    exact (Option.some.inj hsome).symm
  refine ⟨hstore, by rw [hget], ?_, ?_, ?_⟩
  · rw [hstore, List.length_eraseIdx_of_lt (by omega)]
  · intro i hi
    rw [hstore]
    exact List.getElem?_eraseIdx_of_lt _ _ _ hi
  · intro i hi
    rw [hstore]
    exact List.getElem?_eraseIdx_of_ge _ _ _ hi

theorem C5_witness :
    remindersOf (delete_reminder
        ⟨[(3, ⟨[], [⟨"08:00", "a"⟩, ⟨"09:00", "b"⟩, ⟨"10:00", "c"⟩]⟩)], [], none⟩ 3 ["2"]).1.store 3 =
        (remindersOf [(3, ⟨[], [⟨"08:00", "a"⟩, ⟨"09:00", "b"⟩, ⟨"10:00", "c"⟩]⟩)] 3).eraseIdx 1 ∧
      (delete_reminder
        ⟨[(3, ⟨[], [⟨"08:00", "a"⟩, ⟨"09:00", "b"⟩, ⟨"10:00", "c"⟩]⟩)], [], none⟩ 3 ["2"]).2 =
        .deleted ⟨"09:00", "b"⟩ ∧
      (remindersOf (delete_reminder
        ⟨[(3, ⟨[], [⟨"08:00", "a"⟩, ⟨"09:00", "b"⟩, ⟨"10:00", "c"⟩]⟩)], [], none⟩ 3 ["2"]).1.store 3).length =
        (remindersOf [(3, ⟨[], [⟨"08:00", "a"⟩, ⟨"09:00", "b"⟩, ⟨"10:00", "c"⟩]⟩)] 3).length - 1 ∧
      (∀ i, i < 1 →
        (remindersOf (delete_reminder
          ⟨[(3, ⟨[], [⟨"08:00", "a"⟩, ⟨"09:00", "b"⟩, ⟨"10:00", "c"⟩]⟩)], [], none⟩ 3 ["2"]).1.store 3)[i]? =
          (remindersOf [(3, ⟨[], [⟨"08:00", "a"⟩, ⟨"09:00", "b"⟩, ⟨"10:00", "c"⟩]⟩)] 3)[i]?) ∧
      (∀ i, 1 ≤ i →
        (remindersOf (delete_reminder
          ⟨[(3, ⟨[], [⟨"08:00", "a"⟩, ⟨"09:00", "b"⟩, ⟨"10:00", "c"⟩]⟩)], [], none⟩ 3 ["2"]).1.store 3)[i]? =
          (remindersOf [(3, ⟨[], [⟨"08:00", "a"⟩, ⟨"09:00", "b"⟩, ⟨"10:00", "c"⟩]⟩)] 3)[i + 1]?) :=
  C5_delete_positional ⟨[(3, ⟨[], [⟨"08:00", "a"⟩, ⟨"09:00", "b"⟩, ⟨"10:00", "c"⟩]⟩)], [], none⟩
    3 "2" [] 2 ⟨"09:00", "b"⟩ (by decide) (by decide) (by decide) (by decide)

/-- C7 counterexample: the claim says a weight is accepted only if it
parses as a positive number, but `add_weight_get_weight` performs no
sign check: input "-5" is accepted, saved, and appended with the
negative value −5. -/
theorem C7_counterexample :
    (add_weight initState 42 "-5" "today" "2026-10-12").2 = .saved ⟨-5, 0⟩ "2026-10-12" ∧
      (⟨-5, 0⟩ : Dec).num < 0 ∧
      weightsOf (add_weight initState 42 "-5" "today" "2026-10-12").1.store 42 =
        [⟨"2026-10-12", ⟨-5, 0⟩⟩] := by
  refine ⟨by decide, by decide, by decide⟩

/-- C7 amended: `add_weight` accepts a weight input iff the first
whitespace token of the message parses as a Python float — any sign
(positivity is NOT checked) — and a date input iff it case-insensitively
equals "today" (resolved via the clock) or is
`strptime('%Y-%m-%d')`-valid; on acceptance exactly one Weight Entry
{date, weight} is appended to the user's record and the Store is
persisted immediately; on rejection nothing changes. -/
theorem C7_add_weight_validation (s : SysState) (u : Int) (wstr dstr today : String) :
    (∀ w d, add_weight_get_weight wstr = .parsed w →
      add_weight_get_date_resolve dstr today = some d →
        (add_weight s u wstr dstr today).2 = .saved w d ∧
        weightsOf (add_weight s u wstr dstr today).1.store u =
          weightsOf s.store u ++ [⟨d, w⟩] ∧
        (add_weight s u wstr dstr today).1.jobs = s.jobs ∧
        (add_weight s u wstr dstr today).1.file =
          some (add_weight s u wstr dstr today).1.store) ∧
    (((∀ w, add_weight_get_weight wstr ≠ .parsed w) ∨
        add_weight_get_date_resolve dstr today = none) →
      (add_weight s u wstr dstr today).1 = s) := by
  constructor
  · intro w d hw hd
    rw [add_weight_eq_saved s u hw hd]
    refine ⟨rfl, ?_, rfl, rfl⟩
    exact weightsOf_after_push s.store u ⟨d, w⟩
  · exact add_weight_eq_fail s u dstr today

theorem C7_witness :
    (add_weight initState 42 "12.5 kg" "today" "2026-10-12").2 = .saved ⟨125, 1⟩ "2026-10-12" ∧
      weightsOf (add_weight initState 42 "12.5 kg" "today" "2026-10-12").1.store 42 =
        weightsOf initState.store 42 ++ [⟨"2026-10-12", ⟨125, 1⟩⟩] ∧
      (add_weight initState 42 "12.5 kg" "today" "2026-10-12").1.jobs = initState.jobs ∧
      (add_weight initState 42 "12.5 kg" "today" "2026-10-12").1.file =
        some (add_weight initState 42 "12.5 kg" "today" "2026-10-12").1.store :=
  (C7_add_weight_validation initState 42 "12.5 kg" "today" "2026-10-12").1
    ⟨125, 1⟩ "2026-10-12" (by decide) (by decide)

/-- C8 counterexample: the claim says listing leaves the Store
completely unchanged for every user including one with no existing
record, but `list_reminders` calls `get_user_data`, which inserts a
fresh empty record for a first-seen user into the in-memory store. -/
theorem C8_counterexample :
    (list_reminders initState 5).1.store ≠ initState.store := by
  decide

/-- C8 amended: listings never touch the scheduler or the persisted
file, and leave the whole state unchanged for any user that already has
a record (for a first-seen user they only insert a fresh empty record in
memory); `list_reminders` returns the reminders in stored order with
1-based numbering, and `view_weights` returns the weight entries stably
sorted by date ascending (a permutation of the stored entries). -/
theorem C8_listing_readonly (s : SysState) (u : Int) :
    (list_reminders s u).1.jobs = s.jobs ∧
    (list_reminders s u).1.file = s.file ∧
    (view_weights s u).1.jobs = s.jobs ∧
    (view_weights s u).1.file = s.file ∧
    (u ∈ userKeys s.store → (list_reminders s u).1 = s ∧ (view_weights s u).1 = s) ∧
    (list_reminders s u).2.map (fun p => p.2) = remindersOf s.store u ∧
    (list_reminders s u).2.map (fun p => p.1) =
      List.range' 1 (remindersOf s.store u).length ∧
    (view_weights s u).2 = sortByDate (weightsOf s.store u) ∧
    List.Pairwise (fun a b => strLe a.date b.date = true) (view_weights s u).2 ∧
    (view_weights s u).2.Perm (weightsOf s.store u) := by
  refine ⟨rfl, rfl, rfl, rfl, ?_, ?_, ?_, ?_, ?_, ?_⟩
  · intro hmem
    have hens : ensureUser s.store u = s.store := ensureUser_of_mem hmem
    constructor
    · show (⟨ensureUser s.store u, s.jobs, s.file⟩ : SysState) = s
      rw [hens]
    · show (⟨ensureUser s.store u, s.jobs, s.file⟩ : SysState) = s
      rw [hens]
  · show ((remindersOf (ensureUser s.store u) u).enum.map
      (fun p => (p.1 + 1, p.2))).map (fun p => p.2) = remindersOf s.store u
    rw [List.map_map, remindersOf_ensureUser]
    exact List.enum_map_snd (remindersOf s.store u)
  · show ((remindersOf (ensureUser s.store u) u).enum.map
      (fun p => (p.1 + 1, p.2))).map (fun p => p.1) = _
    rw [List.map_map, remindersOf_ensureUser, List.range'_eq_map_range]
    have h1 : ((fun p => p.1) ∘ fun p : Nat × Reminder => (p.1 + 1, p.2)) =
        (fun p : Nat × Reminder => p.1 + 1) := rfl
    rw [h1]
    have h2 : (fun p : Nat × Reminder => p.1 + 1) =
        ((fun n => n + 1) ∘ Prod.fst) := rfl
    rw [h2, ← List.map_map, List.enum_map_fst]
    exact List.map_congr_left (fun n _ => Nat.add_comm n 1)
  · show sortByDate (weightsOf (ensureUser s.store u) u) = _
    rw [weightsOf_ensureUser]
  · show List.Pairwise _ (sortByDate (weightsOf (ensureUser s.store u) u))
    exact pairwise_sortByDate _
  · show (sortByDate (weightsOf (ensureUser s.store u) u)).Perm _
    rw [weightsOf_ensureUser]
    exact sortByDate_perm _

theorem C8_witness :
    (list_reminders ⟨[(3, ⟨[], [⟨"08:30", "a"⟩]⟩)], [], none⟩ 3).1 =
        ⟨[(3, ⟨[], [⟨"08:30", "a"⟩]⟩)], [], none⟩ ∧
      (view_weights ⟨[(3, ⟨[], [⟨"08:30", "a"⟩]⟩)], [], none⟩ 3).1 =
        ⟨[(3, ⟨[], [⟨"08:30", "a"⟩]⟩)], [], none⟩ :=
  (C8_listing_readonly ⟨[(3, ⟨[], [⟨"08:30", "a"⟩]⟩)], [], none⟩ 3).2.2.2.2.1 (by decide)

/-- C9 counterexample: the messages "a b" and "a_b" differ in content
beyond incidental whitespace (their non-whitespace characters differ),
yet for the same recipient and time they are mapped to the SAME job
identity, because whitespace normalisation rewrites the space to the
underscore used as separator. -/
theorem C9_counterexample :
    jobId 7 "08:30" "a b" = jobId 7 "08:30" "a_b" ∧
      "a b" ≠ "a_b" ∧
      "a b".data.filter (fun c => !isPyWs c) ≠
        "a_b".data.filter (fun c => !isPyWs c) := by
  refine ⟨by decide, by decide, by decide⟩

/-- C9 amended: exact-duplicate triples trivially share an identity, and
the identity function is injective on all triples — across recipients,
times and messages — whose time and message contain no underscore (in
particular on all validated HH:MM times): distinct recipients always
give distinct identities because `str(recipient)` is underscore-free and
injective.  But triples whose messages differ only in
space-versus-underscore collide, as the counterexample shows. -/
theorem C9_jobId_injective (c1 c2 : Int) (t1 t2 m1 m2 : String)
    (ht1 : '_' ∉ t1.data) (ht2 : '_' ∉ t2.data)
    (hm1 : '_' ∉ m1.data) (hm2 : '_' ∉ m2.data)
    (h : jobId c1 t1 m1 = jobId c2 t2 m2) : c1 = c2 ∧ t1 = t2 ∧ m1 = m2 := by
  unfold jobId at h
  have hd : jobIdData c1 t1 m1 = jobIdData c2 t2 m2 := congrArg String.data h
  unfold jobIdData at hd
  rw [List.append_assoc, List.append_assoc] at hd
  have h1 := List.append_cancel_left hd
  obtain ⟨hc, h3⟩ := append_sep_inj (intRepr c1) (intRepr c2)
    (t1.data ++ '_' :: normMsg m1) (t2.data ++ '_' :: normMsg m2)
    (underscore_not_mem_intRepr c1) (underscore_not_mem_intRepr c2) h1
  obtain ⟨ht, hm⟩ := append_sep_inj t1.data t2.data (normMsg m1) (normMsg m2) ht1 ht2 h3
  exact ⟨intRepr_inj hc, congrArg String.mk ht, normMsg_inj hm1 hm2 hm⟩

theorem C9_witness :
    ('_' ∉ "08:30".data) ∧ ('_' ∉ "Feed the dog".data) ∧
      ((7 : Int) = 7 ∧ "08:30" = "08:30" ∧ "Feed the dog" = "Feed the dog") :=
  ⟨by decide, by decide,
    C9_jobId_injective 7 7 "08:30" "08:30" "Feed the dog" "Feed the dog"
      (by decide) (by decide) (by decide) (by decide) rfl⟩

/-- C1: at every reachable state of the closed system the set of live
scheduler job identities is a subset of the identities derivable from
the Store's persisted reminders; and immediately after the reconciler
(`repopulate_scheduled_jobs`) runs the two identity sets are exactly
equal — every persisted reminder has a live job with its identity and
every live job has a backing persisted reminder. -/
theorem C1_schedule_store_consistency (s : SysState) (hreach : Reachable s) :
    (∀ x ∈ jobIds s.jobs, x ∈ reminderIds s.store) ∧
      (∀ x, x ∈ jobIds (repopulate s).jobs ↔ x ∈ reminderIds (repopulate s).store) := by
  obtain ⟨htv, hjb, hjn, hkn⟩ := Inv_reachable hreach
  constructor
  · intro x hx
    obtain ⟨j, hj, rfl⟩ := List.mem_map.mp hx
    exact hjb j hj
  · intro x
    constructor
    · intro hx
      rcases (jobIds_storeFold_mem s.store s.jobs x).mp hx with h' | ⟨p, hp, r, hr, rfl, _⟩
      · obtain ⟨j, hj, rfl⟩ := List.mem_map.mp h'
        exact hjb j hj
      · rw [mem_reminderIds]
        exact ⟨p, hp, r, hr, rfl⟩
    · intro hx
      have hx' : x ∈ reminderIds s.store := hx
      rw [mem_reminderIds] at hx'
      obtain ⟨p, hp, r, hr, rfl⟩ := hx'
      apply (jobIds_storeFold_mem s.store s.jobs _).mpr
      right
      refine ⟨p, hp, r, hr, rfl, ?_⟩
      obtain ⟨⟨hh, mm2⟩, hsome⟩ := Option.isSome_iff_exists.mp (htv p hp r hr)
      exact (timeOK_of_parseHM hsome).2

theorem C1_witness :
    (∀ x ∈ jobIds (add_reminder initState 7 "08:30" "Feed the dog").1.jobs,
        x ∈ reminderIds (add_reminder initState 7 "08:30" "Feed the dog").1.store) ∧
      (∀ x, x ∈ jobIds (repopulate (add_reminder initState 7 "08:30" "Feed the dog").1).jobs ↔
        x ∈ reminderIds (repopulate (add_reminder initState 7 "08:30" "Feed the dog").1).store) :=
  C1_schedule_store_consistency (add_reminder initState 7 "08:30" "Feed the dog").1
    (Reachable.addR initState 7 "08:30" "Feed the dog" Reachable.init)

/-- C2: from any reachable state, scheduling a valid (recipient, time,
message) triple twice — two identical adds, or one add followed by the
startup reconciler — leaves exactly one live scheduler job with that
identity, while the Store gains one reminder entry per add (two
identical adds yield two Store entries but one job). -/
theorem C2_idempotent_scheduling (s : SysState) (u : Int) (t m : String) (h mm : Nat)
    (hreach : Reachable s) (ht : parseHM t = some (h, mm)) (hm : m ≠ "") :
    remindersOf (add_reminder (add_reminder s u t m).1 u t m).1.store u =
        remindersOf s.store u ++ [⟨t, m⟩, ⟨t, m⟩] ∧
      (jobIds (add_reminder (add_reminder s u t m).1 u t m).1.jobs).count (jobId u t m) = 1 ∧
      (jobIds (repopulate (add_reminder s u t m).1).jobs).count (jobId u t m) = 1 := by
  have hsome : (parseHM t).isSome := by rw [ht]; rfl
  have htok := (timeOK_of_parseHM ht).2
  have hst1 : (add_reminder s u t m).1.store =
      updateUser (ensureUser s.store u) u
        (fun ur => { ur with reminders := ur.reminders ++ [⟨t, m⟩] }) := by
    rw [add_reminder_eq_success s u hsome hm]
  have hjobs1 : (add_reminder s u t m).1.jobs = (schedule_reminder_job s.jobs u t m).1 := by
    rw [add_reminder_eq_success s u hsome hm]
  have hst2 : (add_reminder (add_reminder s u t m).1 u t m).1.store =
      updateUser (ensureUser (add_reminder s u t m).1.store u) u
        (fun ur => { ur with reminders := ur.reminders ++ [⟨t, m⟩] }) := by
    rw [add_reminder_eq_success (add_reminder s u t m).1 u hsome hm]
  have hjobs2 : (add_reminder (add_reminder s u t m).1 u t m).1.jobs =
      (schedule_reminder_job (add_reminder s u t m).1.jobs u t m).1 := by
    rw [add_reminder_eq_success (add_reminder s u t m).1 u hsome hm]
  have hmem1 : jobId u t m ∈ jobIds (add_reminder s u t m).1.jobs := by
    rw [hjobs1]
    exact (jobIds_schedule_mem s.jobs u t m _).mpr (Or.inr ⟨rfl, htok⟩)
  refine ⟨?_, ?_, ?_⟩
  · rw [hst2, remindersOf_after_push, hst1, remindersOf_after_push]
    simp
  · have hmem2 : jobId u t m ∈
        jobIds (add_reminder (add_reminder s u t m).1 u t m).1.jobs := by
      rw [hjobs2]
      exact (jobIds_schedule_mem _ u t m _).mpr (Or.inr ⟨rfl, htok⟩)
    have hnd2 := (Inv_reachable (Reachable.addR (add_reminder s u t m).1 u t m
      (Reachable.addR s u t m hreach))).2.2.1
    exact List.count_eq_one_of_mem hnd2 hmem2
  · have hmemr : jobId u t m ∈ jobIds (repopulate (add_reminder s u t m).1).jobs :=
      (jobIds_storeFold_mem (add_reminder s u t m).1.store
        (add_reminder s u t m).1.jobs _).mpr (Or.inl hmem1)
    have hndr := (Inv_reachable (Reachable.repop (add_reminder s u t m).1
      (Reachable.addR s u t m hreach))).2.2.1
    exact List.count_eq_one_of_mem hndr hmemr

theorem C2_witness :
    remindersOf (add_reminder (add_reminder initState 7 "08:30" "Feed the dog").1
        7 "08:30" "Feed the dog").1.store 7 =
        remindersOf initState.store 7 ++
          [⟨"08:30", "Feed the dog"⟩, ⟨"08:30", "Feed the dog"⟩] ∧
      (jobIds (add_reminder (add_reminder initState 7 "08:30" "Feed the dog").1
          7 "08:30" "Feed the dog").1.jobs).count (jobId 7 "08:30" "Feed the dog") = 1 ∧
      (jobIds (repopulate (add_reminder initState 7 "08:30" "Feed the dog").1).jobs).count
          (jobId 7 "08:30" "Feed the dog") = 1 :=
  C2_idempotent_scheduling initState 7 "08:30" "Feed the dog" 8 30
    Reachable.init (by decide) (by decide)

end DogBot
